import Mathlib

/-!
# Verification of `bit_algorithm.hpp` (The C++ Bit Library)

A shallow embedding of the two algorithms of `src/cpp/bit_algorithm.hpp`
(`bit::count` and `bit::reverse`) over word-packed bit storage, together with
proofs of the specification's claims about them.

Modelling choices:
* A machine word of bit-width `w` is a `Nat` smaller than `2 ^ w`; the caller's
  storage is a `List Nat` of such words, index `0` being the first word of the
  underlying sequence.
* A bit iterator is the pair `(base, position)` of its underlying word index
  and intra-word offset (`0` = least significant); its logical bit index is
  `base * w + position`.
* The word primitives of `bit_details.hpp` (which is not part of the sources
  under verification) are modelled from the spec's description of the word
  primitive collaborator, and are marked `Modelled from the spec:`.
* C++ unsigned arithmetic wraps modulo `2 ^ w`; every place where the source
  relies on this (left shifts) carries an explicit `% 2 ^ w`.
-/

namespace Bit

/-! ## Definitions -/

/-- Builds the `w`-bit word whose bit `i` equals `f i` for `i < w`.
Helper used to state the spec-modelled word primitives bit by bit. -/
def ofBits : Nat → (Nat → Bool) → Nat
  | 0, _ => 0
  | w + 1, f => (f 0).toNat + 2 * ofBits w (fun i => f (i + 1))

/-- Modelled from the spec: population-count of a word
("population-count(word) → the number of set bits"), the `_popcnt` primitive
of `bit_details.hpp`, which is missing from the sources. -/
def _popcnt (x : Nat) : Nat :=
  if h : x = 0 then 0 else x % 2 + _popcnt (x / 2)
termination_by x
decreasing_by exact Nat.div_lt_self (Nat.pos_of_ne_zero h) one_lt_two

/-- Modelled from the spec: "extract(word, offset, length) → the `length` bits
starting at `offset`, right-justified", the `_bextr` primitive of
`bit_details.hpp`, which is missing from the sources. -/
def _bextr (x s l : Nat) : Nat := (x >>> s) % 2 ^ l

/-- Modelled from the spec: "swap-bit-order(word) → word with bit 0 and bit
(digits−1) exchanged, bit 1 and bit (digits−2) exchanged, etc.", the
`_bitswap` primitive of `bit_details.hpp`, which is missing from the
sources. -/
def _bitswap (w x : Nat) : Nat := ofBits w (fun i => x.testBit (w - 1 - i))

/-- Modelled from the spec: funnel-shift-left on the conceptual double word
`(high:low)` = `x * 2 ^ w + y`, returning the word-sized result nearest
`high` after an `a`-bit left shift, i.e. bits `[w - a, 2w - a)` of the double
word; the `_shld` primitive of `bit_details.hpp`, which is missing from the
sources. -/
def _shld (w x y a : Nat) : Nat := ((x * 2 ^ w + y) >>> (w - a)) % 2 ^ w

/-- Modelled from the spec: funnel-shift-right on the conceptual double word
`(high:low)` = `y * 2 ^ w + x`, returning the word-sized result nearest
`low` after an `a`-bit right shift, i.e. bits `[a, w + a)` of the double word;
the `_shrd` primitive of `bit_details.hpp`, which is missing from the
sources. -/
def _shrd (w x y a : Nat) : Nat := ((y * 2 ^ w + x) >>> a) % 2 ^ w

/-- Modelled from the spec: "blend(base, overlay, offset, length) → `base`
with bits [offset, offset+length) replaced by the corresponding bits of
`overlay`", the `_bitblend` primitive of `bit_details.hpp`, which is missing
from the sources. -/
def _bitblend (w x y s l : Nat) : Nat :=
  ofBits w (fun i => if s ≤ i ∧ i < s + l then y.testBit i else x.testBit i)

/-- The word of the storage at word index `i` (`*it` for `it = begin + i`). -/
def wd (words : List Nat) (i : Nat) : Nat := words.getD i 0

/-- The logical bit index addressed by the bit iterator `(b, p)`. -/
def bitIdx (w b p : Nat) : Nat := b * w + p

/-- The value of the logical bit `i` of the storage: bit `i % w` of word
`i / w`. -/
def bitAt (w : Nat) (words : List Nat) (i : Nat) : Bool :=
  (wd words (i / w)).testBit (i % w)

/-- Representation invariant: every stored word value fits in `w` bits. -/
def wordsWF (w : Nat) (words : List Nat) : Prop := ∀ x ∈ words, x < 2 ^ w

/-- A well-formed bit range `[(b1, p1), (b2, p2))` over the storage: positive
word width, intra-word offsets below `w`, `first ≤ last` in sequence order,
and every touched word inside the storage (`last.base()` itself is touched
only when `last` is unaligned). -/
structure wfRange (w : Nat) (words : List Nat) (b1 p1 b2 p2 : Nat) : Prop where
  wpos : 0 < w
  hp1 : p1 < w
  hp2 : p2 < w
  hle : b1 * w + p1 ≤ b2 * w + p2
  hlen : b2 + (if p2 = 0 then 0 else 1) ≤ words.length
  hwords : wordsWF w words

/-- The single-word branch of `count` (lines 95–99): population count of the
extracted slice `[p1, p2)` of the word. -/
def countSame (x p1 p2 : Nat) : Nat := _popcnt (_bextr x p1 (p2 - p1))

/-- The multi-word branch of `count` (lines 82–92): popcount of the partial
first word (if unaligned), plus popcounts of the full interior words, plus
popcount of the partial last word (if unaligned); C++ `<<` wraps, hence the
`% 2 ^ w`. -/
def countMulti (w : Nat) (words : List Nat) (b1 p1 b2 p2 : Nat) : Nat :=
  (if p1 ≠ 0 then _popcnt (wd words b1 >>> p1) else 0)
  + (((words.drop (b1 + (if p1 ≠ 0 then 1 else 0))).take
      (b2 - (b1 + (if p1 ≠ 0 then 1 else 0)))).map _popcnt).sum
  + (if p2 ≠ 0 then _popcnt ((wd words b2 <<< (w - p2)) % 2 ^ w) else 0)

/-- `bit::count(first, last, value)` of `bit_algorithm.hpp`: the raw set-bit
count over the decomposed range, negated against the range length when the
unset value is requested (line 103–104). -/
def count (w : Nat) (words : List Nat) (b1 p1 b2 p2 : Nat) (value : Bool) :
    Int :=
  let result : Nat :=
    if b1 ≠ b2 then countMulti w words b1 p1 b2 p2
    else countSame (wd words b1) p1 p2
  if value then (result : Int)
  else (bitIdx w b2 p2 : Int) - (bitIdx w b1 p1 : Int) - (result : Int)

/-- Specification-side count: the number of positions in `[l1, l2)` whose bit
equals `value`. -/
def rangeCount (w : Nat) (words : List Nat) (l1 l2 : Nat) (value : Bool) :
    Nat :=
  ((Finset.Ico l1 l2).filter (fun i => bitAt w words i = value)).card

/-- Modelled from the spec: `_assert_range_viability` (from `bit_details.hpp`,
which is missing from the sources): validates before any computation that the
range is well ordered ("the violation is detected before any mutation begins
(fail-fast, no partial writes)"). The spec's other precondition half — first
and last addressing the same underlying sequence — has no representation in
this embedding, where a single storage list is given. -/
def _assert_range_viability (w b1 p1 b2 p2 : Nat) : Bool :=
  decide (b1 * w + p1 ≤ b2 * w + p2)

/-- `count` as seen from the call boundary: the viability assertion runs
first, and a violated precondition surfaces as `none` rather than an
answer. -/
def countChecked (w : Nat) (words : List Nat) (b1 p1 b2 p2 : Nat)
    (value : Bool) : Option Int :=
  if _assert_range_viability w b1 p1 b2 p2 then
    some (count w words b1 p1 b2 p2 value)
  else none

/-- `gap` of the reverse algorithm (line 133):
`(digits - last.position()) * !is_last_aligned`. -/
def gapOf (w p2 : Nat) : Nat := if p2 = 0 then 0 else w - p2

/-- The left realignment loop (lines 153–159): each touched word is
funnel-shifted left by `a`, pulling high bits from the next word; the final
word of the run (`*it <<= gap` at `it = last.base()`) receives a plain left
shift, which is `_shld` against `0`. All reads are of pre-loop values since
the loop walks up reading `*std::next(it)`. -/
def shldRun (w a : Nat) (run : List Nat) : List Nat :=
  List.zipWith (fun x y => _shld w x y a) run (run.drop 1 ++ [0])

/-- The right realignment loop (lines 161–168): each touched word is
funnel-shifted right by `a`, pulling low bits from the previous word; the
first word of the run (`*it >>= gap` at `it = first.base()`) receives a plain
right shift, which is `_shrd` against `0`. All reads are of pre-loop values
since the loop walks down reading `*std::prev(it)`. -/
def shrdRun (w a : Nat) (run : List Nat) : List Nat :=
  List.zipWith (fun x y => _shrd w x y a) run (0 :: run)

/-- The realignment step of the multi-word branch (lines 151–169), selected
by comparing `first.position()` with `gap`. -/
def realignRun (w p1 gap : Nat) (run : List Nat) : List Nat :=
  if p1 < gap then shldRun w (gap - p1) run
  else if gap < p1 then shrdRun w (p1 - gap) run
  else run

/-- The same-word branch of `reverse` (lines 193–200): the new value of the
single touched word. -/
def reverseSame (w x p1 p2 : Nat) : Nat :=
  _bitblend w x (_bitswap w (x >>> p1) >>> gapOf w p2) p1 (p2 - p1)

/-- The both-aligned branch of `reverse` (lines 139–143): whole-word reversal
of `[first.base(), last.base())` followed by an in-place bitswap of each of
those words. -/
def reverseAligned (w : Nat) (words : List Nat) (b1 b2 : Nat) : List Nat :=
  words.take b1 ++ ((words.drop b1).take (b2 - b1)).reverse.map (_bitswap w)
    ++ words.drop b2

/-- The touched run of the multi-word branch after the whole-word reversal of
line 150: the words `[first.base(), std::next(last.base(), !is_last_aligned))`
in reverse order. -/
def runOf (words : List Nat) (b1 e : Nat) : List Nat :=
  ((words.drop b1).take (e - b1)).reverse

/-- Blending of the first word (lines 175–182): keep the saved original bits
`[0, first.position())`, take the new bits `[first.position(), digits)`. -/
def blendFirst (w p1 fv : Nat) (run : List Nat) : List Nat :=
  if p1 ≠ 0 then run.set 0 (_bitblend w fv (wd run 0) p1 (w - p1)) else run

/-- Blending of the last word (lines 184–191): keep the new bits
`[0, last.position())`, restore the saved original bits
`[last.position(), digits)`. -/
def blendLast (w p2 lv : Nat) (run : List Nat) : List Nat :=
  if p2 ≠ 0 then
    run.set (run.length - 1)
      (_bitblend w (wd run (run.length - 1)) lv p2 (w - p2))
  else run

/-- The multi-word branch of `reverse` (lines 145–191): save the boundary
words, reverse the touched run (which excludes `last.base()` exactly when
`last` is aligned), realign by the funnel shifts, bitswap every word of the
run, and blend the unaligned boundary words with the saved originals. -/
def reverseMulti (w : Nat) (words : List Nat) (b1 p1 b2 p2 : Nat) :
    List Nat :=
  let e := b2 + (if p2 = 0 then 0 else 1)
  words.take b1
    ++ blendLast w p2 (wd words (e - 1))
        (blendFirst w p1 (wd words b1)
          ((realignRun w p1 (gapOf w p2) (runOf words b1 e)).map
            (_bitswap w)))
    ++ words.drop e

/-- `bit::reverse(first, last)` of `bit_algorithm.hpp`: branch on the three
structural cases exactly as the source does (lines 139, 145, 192). -/
def reverse (w : Nat) (words : List Nat) (b1 p1 b2 p2 : Nat) : List Nat :=
  if p1 = 0 ∧ p2 = 0 then reverseAligned w words b1 b2
  else if b1 ≠ b2 then reverseMulti w words b1 p1 b2 p2
  else words.set b1 (reverseSame w (wd words b1) p1 p2)

/-- `reverse` as seen from the call boundary: the viability assertion runs
first, and a violated precondition surfaces as `none` with no write to the
storage. -/
def reverseChecked (w : Nat) (words : List Nat) (b1 p1 b2 p2 : Nat) :
    Option (List Nat) :=
  if _assert_range_viability w b1 p1 b2 p2 then
    some (reverse w words b1 p1 b2 p2)
  else none

/-! ## Theorems -/

theorem testBit_ofBits (w : Nat) (f : Nat → Bool) (i : Nat) :
    (ofBits w f).testBit i = if i < w then f i else false := by
  induction w generalizing f i with
  | zero => simp [ofBits]
  | succ w ih =>
    cases i with
    | zero =>
      have h2 : ((f 0).toNat + 2 * ofBits w (fun i => f (i + 1))) % 2
          = (f 0).toNat := by
        cases f 0 <;> simp [Nat.add_mul_mod_self_left]
      simp only [ofBits, Nat.testBit_zero, h2]
      cases f 0 <;> simp
    | succ i =>
      have h2 : ((f 0).toNat + 2 * ofBits w (fun i => f (i + 1))) / 2
          = ofBits w (fun i => f (i + 1)) := by
        cases f 0 <;> simp [Nat.add_mul_div_left]
      simp only [ofBits, Nat.testBit_succ, h2, ih]
      simp [Nat.succ_lt_succ_iff]

theorem ofBits_lt (w : Nat) (f : Nat → Bool) : ofBits w f < 2 ^ w := by
  induction w generalizing f with
  | zero => simp [ofBits]
  | succ w ih =>
    have := ih (fun i => f (i + 1))
    have hb : (f 0).toNat ≤ 1 := Bool.toNat_le (f 0)
    simp only [ofBits, pow_succ]
    omega

theorem _popcnt_eq (x : Nat) : _popcnt x = x % 2 + _popcnt (x / 2) := by
  by_cases h : x = 0
  · subst h; rw [_popcnt]; simp [_popcnt]
  · rw [_popcnt]; simp [h]

theorem _popcnt_eq_sum_testBit (w : Nat) :
    ∀ x : Nat, x < 2 ^ w →
      _popcnt x = ∑ i ∈ Finset.range w, (x.testBit i).toNat := by
  induction w with
  | zero =>
    intro x hx
    norm_num at hx
    subst hx
    simp [_popcnt]
  | succ w ih =>
    intro x hx
    have h2 : (2 : Nat) ^ (w + 1) = 2 ^ w * 2 := pow_succ 2 w
    have hdiv : x / 2 < 2 ^ w := by omega
    have h0 : (x.testBit 0).toNat = x % 2 := by
      rw [Nat.testBit_zero]
      rcases Nat.mod_two_eq_zero_or_one x with h | h <;> simp [h]
    rw [_popcnt_eq x, ih (x / 2) hdiv, Finset.sum_range_succ']
    simp only [Nat.testBit_succ, h0]
    omega

/-- Bits of the conceptual double word `y * 2 ^ w + x` (`y` high, `x` low). -/
theorem testBit_double (w x y t : Nat) (hx : x < 2 ^ w) :
    (y * 2 ^ w + x).testBit t =
      if t < w then x.testBit t else y.testBit (t - w) := by
  by_cases ht : t < w
  · simp only [ht, if_true]
    rw [Nat.testBit_to_div_mod, Nat.testBit_to_div_mod]
    have hw : w = t + (w - t) := by omega
    have hsplit : y * 2 ^ w + x = 2 ^ t * (y * 2 ^ (w - t)) + x := by
      calc y * 2 ^ w + x = y * 2 ^ (t + (w - t)) + x := by rw [← hw]
      _ = 2 ^ t * (y * 2 ^ (w - t)) + x := by rw [pow_add]; ring
    rw [hsplit, Nat.mul_add_div (Nat.pos_pow_of_pos t (by norm_num))]
    have heven : y * 2 ^ (w - t) % 2 = 0 := by
      have hwt : w - t = (w - t - 1) + 1 := by omega
      rw [hwt, pow_succ, ← mul_assoc]
      exact Nat.mul_mod_left _ 2
    have hmod : (y * 2 ^ (w - t) + x / 2 ^ t) % 2 = x / 2 ^ t % 2 := by
      omega
    rw [hmod]
  · simp only [ht, if_false]
    have hsplit : y * 2 ^ w + x = 2 ^ w * y + x := by ring
    rw [Nat.testBit_to_div_mod, Nat.testBit_to_div_mod, hsplit]
    have hpow : (2 : Nat) ^ t = 2 ^ w * 2 ^ (t - w) := by
      rw [← pow_add]
      congr 1
      omega
    rw [hpow, ← Nat.div_div_eq_div_mul,
      Nat.mul_add_div (Nat.pos_pow_of_pos w (by norm_num)),
      Nat.div_eq_of_lt hx, Nat.add_zero]

theorem testBit_bextr (x s l i : Nat) :
    (_bextr x s l).testBit i = if i < l then x.testBit (s + i) else false := by
  unfold _bextr
  rw [Nat.testBit_mod_two_pow, Nat.testBit_shiftRight]
  by_cases h : i < l <;> simp [h]

theorem testBit_bitswap (w x k : Nat) :
    (_bitswap w x).testBit k =
      if k < w then x.testBit (w - 1 - k) else false := by
  unfold _bitswap
  rw [testBit_ofBits]

theorem bitswap_lt (w x : Nat) : _bitswap w x < 2 ^ w := ofBits_lt _ _

theorem testBit_bitblend (w x y s l k : Nat) :
    (_bitblend w x y s l).testBit k =
      if k < w then
        (if s ≤ k ∧ k < s + l then y.testBit k else x.testBit k)
      else false := by
  unfold _bitblend
  rw [testBit_ofBits]

theorem bitblend_lt (w x y s l : Nat) : _bitblend w x y s l < 2 ^ w :=
  ofBits_lt _ _

theorem testBit_shld (w x y a k : Nat) (hy : y < 2 ^ w) (ha : a ≤ w) :
    (_shld w x y a).testBit k =
      if k < w then
        (if k < a then y.testBit (w - a + k) else x.testBit (k - a))
      else false := by
  unfold _shld
  rw [Nat.testBit_mod_two_pow, Nat.testBit_shiftRight,
    testBit_double w y x _ hy]
  by_cases hk : k < w
  · rw [decide_eq_true hk, Bool.true_and, if_pos hk]
    by_cases hka : k < a
    · rw [if_pos (show w - a + k < w by omega), if_pos hka]
    · rw [if_neg (show ¬ (w - a + k < w) by omega), if_neg hka]
      congr 1
      omega
  · rw [decide_eq_false hk, Bool.false_and, if_neg hk]

theorem shld_lt (w x y a : Nat) : _shld w x y a < 2 ^ w :=
  Nat.mod_lt _ (Nat.pos_pow_of_pos w (by norm_num))

theorem testBit_shrd (w x y a k : Nat) (hx : x < 2 ^ w) (ha : a ≤ w) :
    (_shrd w x y a).testBit k =
      if k < w then
        (if k < w - a then x.testBit (k + a) else y.testBit (k - (w - a)))
      else false := by
  unfold _shrd
  rw [Nat.testBit_mod_two_pow, Nat.testBit_shiftRight,
    testBit_double w x y _ hx]
  by_cases hk : k < w
  · rw [decide_eq_true hk, Bool.true_and, if_pos hk]
    by_cases hka : k < w - a
    · rw [if_pos (show a + k < w by omega), if_pos hka]
      congr 1
      omega
    · rw [if_neg (show ¬ (a + k < w) by omega), if_neg hka]
      congr 1
      omega
  · rw [decide_eq_false hk, Bool.false_and, if_neg hk]

theorem shrd_lt (w x y a : Nat) : _shrd w x y a < 2 ^ w :=
  Nat.mod_lt _ (Nat.pos_pow_of_pos w (by norm_num))

theorem wd_lt {w : Nat} {words : List Nat} (hw : wordsWF w words) (j : Nat) :
    wd words j < 2 ^ w := by
  unfold wd
  by_cases h : j < words.length
  · rw [List.getD_eq_getElem?_getD, List.getElem?_eq_getElem h,
      Option.getD_some]
    exact hw _ (List.getElem_mem h)
  · rw [List.getD_eq_getElem?_getD, List.getElem?_eq_none (by omega),
      Option.getD_none]
    exact Nat.pos_pow_of_pos w (by norm_num)

theorem wd_eq_getElem {words : List Nat} {j : Nat} (h : j < words.length) :
    wd words j = words[j] := by
  unfold wd
  rw [List.getD_eq_getElem?_getD, List.getElem?_eq_getElem h, Option.getD_some]

theorem bitAt_base (w : Nat) (words : List Nat) (b k : Nat) (hk : k < w) :
    bitAt w words (b * w + k) = (wd words b).testBit k := by
  unfold bitAt
  have hdiv : (b * w + k) / w = b := by
    rw [Nat.add_comm, Nat.mul_comm,
      Nat.add_mul_div_left _ _ (by omega : 0 < w), Nat.div_eq_of_lt hk]
    omega
  have hmod : (b * w + k) % w = k := by
    rw [Nat.add_comm, Nat.mul_comm, Nat.add_mul_mod_self_left,
      Nat.mod_eq_of_lt hk]
  rw [hdiv, hmod]

theorem sum_bitAt_word (w : Nat) (words : List Nat) (b s t : Nat)
    (hs : s ≤ t) (ht : t ≤ w) :
    ∑ i ∈ Finset.Ico (b * w + s) (b * w + t), (bitAt w words i).toNat
      = ∑ k ∈ Finset.Ico s t, ((wd words b).testBit k).toNat := by
  rw [Finset.sum_Ico_eq_sum_range, Finset.sum_Ico_eq_sum_range]
  have hlen : b * w + t - (b * w + s) = t - s := by omega
  rw [hlen]
  apply Finset.sum_congr rfl
  intro i hi
  rw [Finset.mem_range] at hi
  have h1 : b * w + s + i = b * w + (s + i) := by omega
  rw [h1, bitAt_base w words b (s + i) (by omega)]

theorem popcnt_shiftRight (w x p : Nat) (hx : x < 2 ^ w) (hp : p ≤ w) :
    _popcnt (x >>> p) = ∑ k ∈ Finset.Ico p w, (x.testBit k).toNat := by
  have hlt : x >>> p < 2 ^ (w - p) := by
    rw [Nat.shiftRight_eq_div_pow]
    apply Nat.div_lt_of_lt_mul
    calc x < 2 ^ w := hx
    _ = 2 ^ p * 2 ^ (w - p) := by rw [← pow_add]; congr 1; omega
  rw [_popcnt_eq_sum_testBit (w - p) _ hlt, Finset.sum_Ico_eq_sum_range]
  apply Finset.sum_congr rfl
  intro i _
  rw [Nat.testBit_shiftRight]

theorem popcnt_shiftLeft_mod (w x p : Nat) (hp : p ≤ w) :
    _popcnt ((x <<< (w - p)) % 2 ^ w)
      = ∑ k ∈ Finset.range p, (x.testBit k).toNat := by
  have hlt : (x <<< (w - p)) % 2 ^ w < 2 ^ w :=
    Nat.mod_lt _ (Nat.pos_pow_of_pos w (by norm_num))
  have hbit : ∀ i, ((x <<< (w - p)) % 2 ^ w).testBit i
      = if i < w ∧ w - p ≤ i then x.testBit (i - (w - p)) else false := by
    intro i
    rw [Nat.testBit_mod_two_pow, Nat.testBit_shiftLeft]
    by_cases h1 : i < w <;> by_cases h2 : w - p ≤ i <;> simp [h1, h2]
  rw [_popcnt_eq_sum_testBit w _ hlt, Finset.range_eq_Ico,
    ← Finset.sum_Ico_consecutive _ (Nat.zero_le (w - p)) (by omega : w - p ≤ w)]
  have hz : ∑ i ∈ Finset.Ico 0 (w - p),
      (((x <<< (w - p)) % 2 ^ w).testBit i).toNat = 0 := by
    apply Finset.sum_eq_zero
    intro i hi
    rw [Finset.mem_Ico] at hi
    rw [hbit i, if_neg (by omega)]
    rfl
  rw [hz, Nat.zero_add, Finset.sum_Ico_eq_sum_range]
  have hlen : w - (w - p) = p := by omega
  rw [hlen, ← Finset.range_eq_Ico]
  apply Finset.sum_congr rfl
  intro i hi
  rw [Finset.mem_range] at hi
  rw [hbit (w - p + i), if_pos (by omega)]
  have e : w - p + i - (w - p) = i := by omega
  rw [e]

theorem popcnt_bextr (x p1 p2 : Nat) :
    _popcnt (_bextr x p1 (p2 - p1))
      = ∑ k ∈ Finset.Ico p1 p2, (x.testBit k).toNat := by
  have hlt : _bextr x p1 (p2 - p1) < 2 ^ (p2 - p1) :=
    Nat.mod_lt _ (Nat.pos_pow_of_pos _ (by norm_num))
  rw [_popcnt_eq_sum_testBit (p2 - p1) _ hlt, Finset.sum_Ico_eq_sum_range]
  apply Finset.sum_congr rfl
  intro i hi
  rw [Finset.mem_range] at hi
  rw [testBit_bextr, if_pos hi]

theorem interior_sum (w : Nat) (words : List Nat) (hw : wordsWF w words) :
    ∀ cnt j, j + cnt ≤ words.length →
      (((words.drop j).take cnt).map _popcnt).sum
        = ∑ i ∈ Finset.Ico (j * w) ((j + cnt) * w), (bitAt w words i).toNat := by
  intro cnt
  induction cnt with
  | zero =>
    intro j hj
    simp
  | succ cnt ih =>
    intro j hj
    have hjlen : j < words.length := by omega
    rw [List.drop_eq_getElem_cons hjlen, List.take_succ_cons, List.map_cons,
      List.sum_cons, ih (j + 1) (by omega)]
    have hword : _popcnt words[j]
        = ∑ i ∈ Finset.Ico (j * w + 0) (j * w + w), (bitAt w words i).toNat := by
      rw [sum_bitAt_word w words j 0 w (Nat.zero_le w) le_rfl,
        ← Finset.range_eq_Ico, wd_eq_getElem hjlen]
      exact _popcnt_eq_sum_testBit w _ (hw _ (List.getElem_mem hjlen))
    rw [hword]
    have e1 : j * w + 0 = j * w := by omega
    have e2 : j * w + w = (j + 1) * w := by ring
    have e3 : (j + 1 + cnt) * w = (j + (cnt + 1)) * w := by ring
    rw [e1, e2, e3]
    exact Finset.sum_Ico_consecutive _
      (by nlinarith [Nat.zero_le w] : j * w ≤ (j + 1) * w)
      (by nlinarith [Nat.zero_le w] : (j + 1) * w ≤ (j + (cnt + 1)) * w)

/-- The raw set-bit count computed by either branch of `count` equals the
number of set bits of the range. -/
theorem countRaw_spec (w : Nat) (words : List Nat) (b1 p1 b2 p2 : Nat)
    (hwf : wfRange w words b1 p1 b2 p2) :
    (if b1 ≠ b2 then countMulti w words b1 p1 b2 p2
      else countSame (wd words b1) p1 p2)
      = ∑ i ∈ Finset.Ico (bitIdx w b1 p1) (bitIdx w b2 p2),
          (bitAt w words i).toNat := by
  obtain ⟨wpos, hp1, hp2, hle, hlen, hwords⟩ := hwf
  unfold bitIdx
  by_cases hb : b1 = b2
  · subst hb
    have hp12 : p1 ≤ p2 := by omega
    rw [if_neg (by simp)]
    unfold countSame
    rw [popcnt_bextr (wd words b1) p1 p2,
      ← sum_bitAt_word w words b1 p1 p2 hp12 (le_of_lt hp2)]
  · rw [if_pos hb]
    have hb12 : b1 < b2 := by
      rcases Nat.lt_or_ge b1 b2 with h | h
      · exact h
      · exfalso
        have h1 : b2 + 1 ≤ b1 := by omega
        have h2 : (b2 + 1) * w ≤ b1 * w := Nat.mul_le_mul_right w h1
        have h3 : (b2 + 1) * w = b2 * w + w := by ring
        omega
    have hblen : b2 ≤ words.length := by
      by_cases h : p2 = 0 <;> simp [h] at hlen <;> omega
    unfold countMulti
    -- the partial last word contributes the bits [b2*w, b2*w + p2)
    have hlast : (if p2 ≠ 0 then
          _popcnt ((wd words b2 <<< (w - p2)) % 2 ^ w) else 0)
        = ∑ i ∈ Finset.Ico (b2 * w) (b2 * w + p2), (bitAt w words i).toNat := by
      by_cases h2 : p2 = 0
      · subst h2
        simp
      · rw [if_pos h2, popcnt_shiftLeft_mod w _ p2 (le_of_lt hp2)]
        have hs := sum_bitAt_word w words b2 0 p2 (Nat.zero_le p2)
          (le_of_lt hp2)
        simp only [Nat.add_zero] at hs
        rw [Finset.range_eq_Ico, ← hs]
    by_cases h1 : p1 = 0
    · subst h1
      rw [if_neg (by simp), if_neg (by simp)]
      have hint : ((List.take (b2 - (b1 + 0)) (List.drop (b1 + 0) words)).map
            _popcnt).sum
          = ∑ i ∈ Finset.Ico (b1 * w) (b2 * w), (bitAt w words i).toNat := by
        have := interior_sum w words hwords (b2 - b1) b1 (by omega)
        have e : b1 + (b2 - b1) = b2 := by omega
        rw [e] at this
        simpa using this
      rw [hint, hlast, Nat.zero_add, Nat.add_zero]
      refine Finset.sum_Ico_consecutive _ ?_ (by omega)
      exact Nat.mul_le_mul_right w (le_of_lt hb12)
    · rw [if_pos h1, if_pos h1]
      have hfirst : _popcnt (wd words b1 >>> p1)
          = ∑ i ∈ Finset.Ico (b1 * w + p1) (b1 * w + w),
              (bitAt w words i).toNat := by
        rw [popcnt_shiftRight w _ p1 (wd_lt hwords b1) (le_of_lt hp1),
          sum_bitAt_word w words b1 p1 w (le_of_lt hp1) le_rfl]
      have hint : ((List.take (b2 - (b1 + 1)) (List.drop (b1 + 1) words)).map
            _popcnt).sum
          = ∑ i ∈ Finset.Ico ((b1 + 1) * w) (b2 * w),
              (bitAt w words i).toNat := by
        have := interior_sum w words hwords (b2 - (b1 + 1)) (b1 + 1) (by omega)
        have e : b1 + 1 + (b2 - (b1 + 1)) = b2 := by omega
        rw [e] at this
        exact this
      rw [hfirst, hint, hlast]
      have e2 : b1 * w + w = (b1 + 1) * w := by ring
      rw [e2]
      have hc1 : b1 * w + p1 ≤ (b1 + 1) * w := by
        have : (b1 + 1) * w = b1 * w + w := by ring
        omega
      have hc2 : (b1 + 1) * w ≤ b2 * w := Nat.mul_le_mul_right w (by omega)
      rw [Finset.sum_Ico_consecutive _ hc1 hc2]
      refine Finset.sum_Ico_consecutive _ ?_ (by omega)
      calc b1 * w + p1 ≤ (b1 + 1) * w := hc1
      _ ≤ b2 * w := hc2

/-- `rangeCount` for the set value, as a sum of bit values. -/
theorem rangeCount_true_eq_sum (w : Nat) (words : List Nat) (l1 l2 : Nat) :
    rangeCount w words l1 l2 true
      = ∑ i ∈ Finset.Ico l1 l2, (bitAt w words i).toNat := by
  unfold rangeCount
  rw [eq_comm]
  have h : ∀ i, (bitAt w words i).toNat
      = if bitAt w words i = true then 1 else 0 := by
    intro i
    cases bitAt w words i <;> simp
  calc ∑ i ∈ Finset.Ico l1 l2, (bitAt w words i).toNat
      = ∑ i ∈ Finset.Ico l1 l2,
          (if bitAt w words i = true then 1 else 0) :=
        Finset.sum_congr rfl (fun i _ => h i)
  _ = ((Finset.Ico l1 l2).filter (fun i => bitAt w words i = true)).card := by
      rw [Finset.sum_boole]
      simp

theorem rangeCount_le (w : Nat) (words : List Nat) (l1 l2 : Nat)
    (value : Bool) : rangeCount w words l1 l2 value ≤ l2 - l1 := by
  unfold rangeCount
  calc ((Finset.Ico l1 l2).filter (fun i => bitAt w words i = value)).card
      ≤ (Finset.Ico l1 l2).card := Finset.card_filter_le _ _
  _ = l2 - l1 := Nat.card_Ico l1 l2

theorem rangeCount_false_eq (w : Nat) (words : List Nat) (l1 l2 : Nat) :
    rangeCount w words l1 l2 false
      = (l2 - l1) - rangeCount w words l1 l2 true := by
  unfold rangeCount
  have hsplit := Finset.filter_card_add_filter_neg_card_eq_card
    (s := Finset.Ico l1 l2) (p := fun i => bitAt w words i = true)
  have hneg : (Finset.Ico l1 l2).filter (fun i => ¬ bitAt w words i = true)
      = (Finset.Ico l1 l2).filter (fun i => bitAt w words i = false) := by
    apply Finset.filter_congr
    intro i _
    simp
  rw [hneg] at hsplit
  rw [Nat.card_Ico] at hsplit
  omega

/-- `count` agrees with the specification-side `rangeCount` for both bit
values. -/
theorem count_eq_rangeCount (w : Nat) (words : List Nat)
    (b1 p1 b2 p2 : Nat) (value : Bool)
    (hwf : wfRange w words b1 p1 b2 p2) :
    count w words b1 p1 b2 p2 value
      = (rangeCount w words (bitIdx w b1 p1) (bitIdx w b2 p2) value : Int) := by
  have hraw := countRaw_spec w words b1 p1 b2 p2 hwf
  have htrue := rangeCount_true_eq_sum w words (bitIdx w b1 p1)
    (bitIdx w b2 p2)
  have hle : bitIdx w b1 p1 ≤ bitIdx w b2 p2 := hwf.hle
  have hbound := rangeCount_le w words (bitIdx w b1 p1) (bitIdx w b2 p2) true
  cases value with
  | true =>
    unfold count
    simp only [if_true]
    rw [hraw, ← htrue]
  | false =>
    unfold count
    simp only [Bool.false_eq_true, if_false]
    rw [hraw, ← htrue,
      rangeCount_false_eq w words (bitIdx w b1 p1) (bitIdx w b2 p2)]
    have h1 : (rangeCount w words (bitIdx w b1 p1) (bitIdx w b2 p2) true : Int)
        ≤ (bitIdx w b2 p2 : Int) - (bitIdx w b1 p1 : Int) := by
      have := hbound
      omega
    omega

theorem wd_append_left (A B : List Nat) (j : Nat) (h : j < A.length) :
    wd (A ++ B) j = wd A j := by
  unfold wd
  rw [List.getD_eq_getElem?_getD, List.getD_eq_getElem?_getD,
    List.getElem?_append, if_pos h]

theorem wd_append_right (A B : List Nat) (j : Nat) (h : A.length ≤ j) :
    wd (A ++ B) j = wd B (j - A.length) := by
  unfold wd
  rw [List.getD_eq_getElem?_getD, List.getD_eq_getElem?_getD,
    List.getElem?_append_right h]

theorem wd_drop (c : Nat) (l : List Nat) (j : Nat) :
    wd (l.drop c) j = wd l (c + j) := by
  unfold wd
  rw [List.getD_eq_getElem?_getD, List.getD_eq_getElem?_getD,
    List.getElem?_drop]

theorem wd_take (c : Nat) (l : List Nat) (j : Nat) (h : j < c) :
    wd (l.take c) j = wd l j := by
  unfold wd
  rw [List.getD_eq_getElem?_getD, List.getD_eq_getElem?_getD,
    List.getElem?_take, if_pos h]

theorem wd_reverse (l : List Nat) (j : Nat) (h : j < l.length) :
    wd l.reverse j = wd l (l.length - 1 - j) := by
  unfold wd
  rw [List.getD_eq_getElem?_getD, List.getD_eq_getElem?_getD,
    List.getElem?_reverse h]

theorem wd_map (f : Nat → Nat) (l : List Nat) (j : Nat) (h : j < l.length) :
    wd (l.map f) j = f (wd l j) := by
  unfold wd
  rw [List.getD_eq_getElem?_getD, List.getD_eq_getElem?_getD,
    List.getElem?_map, List.getElem?_eq_getElem h]
  rfl

theorem wd_set (l : List Nat) (m v j : Nat) :
    wd (l.set m v) j = if m = j ∧ m < l.length then v else wd l j := by
  unfold wd
  rw [List.getD_eq_getElem?_getD, List.getD_eq_getElem?_getD,
    List.getElem?_set]
  by_cases h1 : m = j
  · subst h1
    by_cases h2 : m < l.length
    · simp [h2]
    · rw [if_pos rfl, if_neg h2, if_neg (by omega)]
      rw [List.getElem?_eq_none (by omega)]
  · simp [h1]

theorem wd_oob (l : List Nat) (j : Nat) (h : l.length ≤ j) : wd l j = 0 := by
  unfold wd
  rw [List.getD_eq_getElem?_getD, List.getElem?_eq_none h, Option.getD_none]

theorem getElem?_wd {l : List Nat} {j : Nat} (h : j < l.length) :
    l[j]? = some (wd l j) := by
  rw [List.getElem?_eq_getElem h, wd_eq_getElem h]

theorem wd_of_some {l : List Nat} {j x : Nat} (h : l[j]? = some x) :
    wd l j = x := by
  unfold wd
  rw [List.getD_eq_getElem?_getD, h, Option.getD_some]

theorem shldRun_length (w a : Nat) (run : List Nat) :
    (shldRun w a run).length = run.length := by
  unfold shldRun
  rw [List.length_zipWith, inf_eq_min]
  simp only [List.length_append, List.length_drop, List.length_cons,
    List.length_nil]
  omega

theorem shrdRun_length (w a : Nat) (run : List Nat) :
    (shrdRun w a run).length = run.length := by
  unfold shrdRun
  rw [List.length_zipWith, inf_eq_min]
  simp only [List.length_cons]
  omega

theorem realignRun_length (w p1 gap : Nat) (run : List Nat) :
    (realignRun w p1 gap run).length = run.length := by
  unfold realignRun
  by_cases h1 : p1 < gap
  · rw [if_pos h1, shldRun_length]
  · rw [if_neg h1]
    by_cases h2 : gap < p1
    · rw [if_pos h2, shrdRun_length]
    · rw [if_neg h2]

theorem shldRun_wd (w a : Nat) (run : List Nat) (j : Nat)
    (hj : j < run.length) :
    wd (shldRun w a run) j = _shld w (wd run j) (wd run (j + 1)) a := by
  have h2 : (run.drop 1 ++ [0])[j]? = some (wd run (j + 1)) := by
    by_cases hd : j < run.length - 1
    · rw [List.getElem?_append, if_pos (by rw [List.length_drop]; omega),
        List.getElem?_drop, (by omega : 1 + j = j + 1),
        getElem?_wd (by omega : j + 1 < run.length)]
    · rw [List.getElem?_append, if_neg (by rw [List.length_drop]; omega),
        wd_oob run (j + 1) (by omega)]
      have he : j - (run.drop 1).length = 0 := by
        rw [List.length_drop]
        omega
      rw [he]
      rfl
  apply wd_of_some
  unfold shldRun
  rw [List.getElem?_zipWith, getElem?_wd hj, h2]

theorem shrdRun_wd (w a : Nat) (run : List Nat) (j : Nat)
    (hj : j < run.length) :
    wd (shrdRun w a run) j
      = _shrd w (wd run j) (if j = 0 then 0 else wd run (j - 1)) a := by
  have h2 : (0 :: run)[j]?
      = some (if j = 0 then 0 else wd run (j - 1)) := by
    cases j with
    | zero => rw [if_pos rfl, List.getElem?_cons_zero]
    | succ m =>
      rw [if_neg (by omega)]
      simp only [List.getElem?_cons_succ, Nat.add_sub_cancel]
      exact getElem?_wd (by omega : m < run.length)
  apply wd_of_some
  unfold shrdRun
  rw [List.getElem?_zipWith, getElem?_wd hj, h2]

theorem bitAt_def (w : Nat) (L : List Nat) (i : Nat) :
    bitAt w L i = (wd L (i / w)).testBit (i % w) := rfl

theorem blendFirst_length (w p1 fv : Nat) (run : List Nat) :
    (blendFirst w p1 fv run).length = run.length := by
  unfold blendFirst
  by_cases h : p1 ≠ 0
  · rw [if_pos h, List.length_set]
  · rw [if_neg h]

theorem blendLast_length (w p2 lv : Nat) (run : List Nat) :
    (blendLast w p2 lv run).length = run.length := by
  unfold blendLast
  by_cases h : p2 ≠ 0
  · rw [if_pos h, List.length_set]
  · rw [if_neg h]

theorem wd_blendFirst (w p1 fv : Nat) (run : List Nat) (r : Nat)
    (hr : r < run.length) :
    wd (blendFirst w p1 fv run) r
      = if p1 ≠ 0 ∧ r = 0 then _bitblend w fv (wd run 0) p1 (w - p1)
        else wd run r := by
  unfold blendFirst
  by_cases hp : p1 ≠ 0
  · rw [if_pos hp, wd_set]
    by_cases h0 : r = 0
    · subst h0
      rw [if_pos ⟨rfl, by omega⟩, if_pos ⟨hp, rfl⟩]
    · rw [if_neg (by omega), if_neg (by simp [h0])]
  · rw [if_neg hp, if_neg (by simp [hp])]

theorem wd_blendLast (w p2 lv : Nat) (run : List Nat) (r : Nat)
    (hr : r < run.length) :
    wd (blendLast w p2 lv run) r
      = if p2 ≠ 0 ∧ r = run.length - 1 then
          _bitblend w (wd run (run.length - 1)) lv p2 (w - p2)
        else wd run r := by
  unfold blendLast
  by_cases hp : p2 ≠ 0
  · rw [if_pos hp, wd_set]
    by_cases h0 : r = run.length - 1
    · subst h0
      rw [if_pos ⟨rfl, by omega⟩, if_pos ⟨hp, rfl⟩]
    · rw [if_neg (by omega), if_neg (by simp [h0])]
  · rw [if_neg hp, if_neg (by simp [hp])]

/-- The heart of the multi-word branch: after reversing the touched run,
realigning it by the selected funnel shift and bitswapping every word, bit
`k` of run word `r` holds the mirrored original bit of the range. The two
word-local side conditions exclude exactly the boundary bits that the final
blends overwrite. -/
theorem run3_bit (w : Nat) (words : List Nat) (b1 p1 b2 p2 n : Nat)
    (hn : n = b2 + (if p2 = 0 then 0 else 1) - b1)
    (hw : 0 < w) (hp1 : p1 < w) (hp2 : p2 < w)
    (hna : ¬ (p1 = 0 ∧ p2 = 0))
    (hb : b1 < b2)
    (hlen : b1 + n ≤ words.length)
    (hwords : wordsWF w words)
    (r k : Nat) (hr : r < n) (hk : k < w)
    (hr0 : r = 0 → p1 ≤ k)
    (hrn : p2 ≠ 0 → r = n - 1 → k < p2) :
    (wd ((realignRun w p1 (gapOf w p2)
        (((words.drop b1).take n).reverse)).map (_bitswap w)) r).testBit k
      = bitAt w words
          (b1 * w + p1 + ((b2 - b1) * w + p2) - 1 - (r * w + k)) := by
  have hw2 : ∀ j, wd words j < 2 ^ w := wd_lt hwords
  have hlen0 : ((words.drop b1).take n).length = n := by
    rw [List.length_take, List.length_drop, inf_eq_min]
    omega
  have hlen1 : (((words.drop b1).take n).reverse).length = n := by
    rw [List.length_reverse, hlen0]
  have hrw : ∀ s, s < n → wd (((words.drop b1).take n).reverse) s
      = wd words (b1 + (n - 1 - s)) := by
    intro s hs
    rw [wd_reverse _ s (by rw [hlen0]; exact hs), hlen0,
      wd_take n _ _ (by omega), wd_drop]
  have hrlt : ∀ s, wd (((words.drop b1).take n).reverse) s < 2 ^ w := by
    intro s
    by_cases hs : s < n
    · rw [hrw s hs]
      exact hw2 _
    · rw [wd_oob _ s (by rw [hlen1]; omega)]
      exact Nat.pos_pow_of_pos w (by norm_num)
  rw [wd_map _ _ r (by rw [realignRun_length, hlen1]; exact hr),
    testBit_bitswap, if_pos hk]
  by_cases hp2z : p2 = 0
  · -- last aligned: gap = 0, hence the right funnel shift by p1
    have hp1z : ¬ p1 = 0 := fun h => hna ⟨h, hp2z⟩
    have hgap : gapOf w p2 = 0 := by rw [gapOf, if_pos hp2z]
    have hnval : n = b2 - b1 := by rw [hn, if_pos hp2z]; omega
    rw [hgap, realignRun, if_neg (by omega), if_pos (by omega), Nat.sub_zero,
      shrdRun_wd w p1 _ r (by rw [hlen1]; exact hr),
      testBit_shrd _ _ _ _ _ (hrlt r) (by omega),
      if_pos (by omega : w - 1 - k < w)]
    by_cases hks : w - 1 - k < w - p1
    · rw [if_pos hks, hrw r hr]
      set s := n - 1 - r with hs
      have hid1 : (b1 + s) * w = b1 * w + s * w := by ring
      have hid2 : (b2 - b1) * w = r * w + s * w + w := by
        have e1 : b2 - b1 = r + s + 1 := by omega
        rw [e1]; ring
      have hT : b1 * w + p1 + ((b2 - b1) * w + p2) - 1 - (r * w + k)
          = (b1 + s) * w + (w - 1 - k + p1) := by omega
      rw [hT, bitAt_base w words _ _ (by omega)]
    · rw [if_neg hks]
      by_cases hr0' : r = 0
      · exfalso
        have := hr0 hr0'
        omega
      · rw [if_neg hr0', hrw (r - 1) (by omega)]
        set s := n - 1 - r with hs
        have he1 : n - 1 - (r - 1) = s + 1 := by omega
        rw [he1]
        have hid1 : (b1 + (s + 1)) * w = b1 * w + s * w + w := by ring
        have hid2 : (b2 - b1) * w = r * w + s * w + w := by
          have e1 : b2 - b1 = r + s + 1 := by omega
          rw [e1]; ring
        have hT : b1 * w + p1 + ((b2 - b1) * w + p2) - 1 - (r * w + k)
            = (b1 + (s + 1)) * w + (w - 1 - k - (w - p1)) := by omega
        rw [hT, bitAt_base w words _ _ (by omega)]
  · -- last unaligned: gap = w - p2
    have hgap : gapOf w p2 = w - p2 := by rw [gapOf, if_neg hp2z]
    have hnval : n = b2 + 1 - b1 := by rw [hn, if_neg hp2z]
    rw [hgap]
    by_cases hA : p1 < w - p2
    · -- left funnel shift by (w - p2) - p1
      rw [realignRun, if_pos hA,
        shldRun_wd _ _ _ r (by rw [hlen1]; exact hr),
        testBit_shld _ _ _ _ _ (hrlt (r + 1)) (by omega),
        if_pos (by omega : w - 1 - k < w)]
      by_cases hks : w - 1 - k < w - p2 - p1
      · rw [if_pos hks]
        by_cases hrn' : r + 1 < n
        · rw [hrw (r + 1) hrn']
          set s := n - 1 - (r + 1) with hs
          have hid1 : (b1 + s) * w = b1 * w + s * w := by ring
          have hid2 : (b2 - b1) * w = r * w + s * w + w := by
            have e1 : b2 - b1 = r + s + 1 := by omega
            rw [e1]; ring
          have hT : b1 * w + p1 + ((b2 - b1) * w + p2) - 1 - (r * w + k)
              = (b1 + s) * w + (w - (w - p2 - p1) + (w - 1 - k)) := by
            omega
          rw [hT, bitAt_base w words _ _ (by omega)]
        · exfalso
          have := hrn hp2z (by omega)
          omega
      · rw [if_neg hks, hrw r hr]
        set s := n - 1 - r with hs
        have hid1 : (b1 + s) * w = b1 * w + s * w := by ring
        have hid2 : (b2 - b1) * w = r * w + s * w := by
          have e1 : b2 - b1 = r + s := by omega
          rw [e1]; ring
        have hT : b1 * w + p1 + ((b2 - b1) * w + p2) - 1 - (r * w + k)
            = (b1 + s) * w + (w - 1 - k - (w - p2 - p1)) := by omega
        rw [hT, bitAt_base w words _ _ (by omega)]
    · by_cases hB : w - p2 < p1
      · -- right funnel shift by p1 - (w - p2)
        rw [realignRun, if_neg hA, if_pos hB,
          shrdRun_wd _ _ _ r (by rw [hlen1]; exact hr),
          testBit_shrd _ _ _ _ _ (hrlt r) (by omega),
          if_pos (by omega : w - 1 - k < w)]
        by_cases hks : w - 1 - k < w - (p1 - (w - p2))
        · rw [if_pos hks, hrw r hr]
          set s := n - 1 - r with hs
          have hid1 : (b1 + s) * w = b1 * w + s * w := by ring
          have hid2 : (b2 - b1) * w = r * w + s * w := by
            have e1 : b2 - b1 = r + s := by omega
            rw [e1]; ring
          have hT : b1 * w + p1 + ((b2 - b1) * w + p2) - 1 - (r * w + k)
              = (b1 + s) * w + (w - 1 - k + (p1 - (w - p2))) := by omega
          rw [hT, bitAt_base w words _ _ (by omega)]
        · rw [if_neg hks]
          by_cases hr0' : r = 0
          · exfalso
            have := hr0 hr0'
            omega
          · rw [if_neg hr0', hrw (r - 1) (by omega)]
            set s := n - 1 - r with hs
            have he1 : n - 1 - (r - 1) = s + 1 := by omega
            rw [he1]
            have hid1 : (b1 + (s + 1)) * w = b1 * w + s * w + w := by ring
            have hid2 : (b2 - b1) * w = r * w + s * w := by
              have e1 : b2 - b1 = r + s := by omega
              rw [e1]; ring
            have hT : b1 * w + p1 + ((b2 - b1) * w + p2) - 1 - (r * w + k)
                = (b1 + (s + 1)) * w
                  + (w - 1 - k - (w - (p1 - (w - p2)))) := by omega
            rw [hT, bitAt_base w words _ _ (by omega)]
      · -- no shift: p1 = w - p2
        rw [realignRun, if_neg hA, if_neg hB, hrw r hr]
        set s := n - 1 - r with hs
        have hid1 : (b1 + s) * w = b1 * w + s * w := by ring
        have hid2 : (b2 - b1) * w = r * w + s * w := by
          have e1 : b2 - b1 = r + s := by omega
          rw [e1]; ring
        have hT : b1 * w + p1 + ((b2 - b1) * w + p2) - 1 - (r * w + k)
            = (b1 + s) * w + (w - 1 - k) := by omega
        rw [hT, bitAt_base w words _ _ (by omega)]

/-- Bit-level specification of the whole multi-word branch: inside the range
every bit is mirrored, outside it every bit is preserved. -/
theorem reverseMulti_bitAt (w : Nat) (words : List Nat) (b1 p1 b2 p2 : Nat)
    (hw : 0 < w) (hp1 : p1 < w) (hp2 : p2 < w)
    (hna : ¬ (p1 = 0 ∧ p2 = 0)) (hb : b1 < b2)
    (hlen : b2 + (if p2 = 0 then 0 else 1) ≤ words.length)
    (hwords : wordsWF w words) (i : Nat) :
    bitAt w (reverseMulti w words b1 p1 b2 p2) i
      = if b1 * w + p1 ≤ i ∧ i < b2 * w + p2 then
          bitAt w words (b1 * w + p1 + (b2 * w + p2) - 1 - i)
        else bitAt w words i := by
  simp only [reverseMulti]
  set E := b2 + (if p2 = 0 then 0 else 1) with hE
  have hEcases : (p2 = 0 ∧ E = b2) ∨ (p2 ≠ 0 ∧ E = b2 + 1) := by
    by_cases h : p2 = 0
    · exact Or.inl ⟨h, by rw [hE, if_pos h, Nat.add_zero]⟩
    · exact Or.inr ⟨h, by rw [hE, if_neg h]⟩
  have hbE : b1 < E := by rcases hEcases with ⟨_, h⟩ | ⟨_, h⟩ <;> omega
  set n := E - b1 with hn
  set R3 := (realignRun w p1 (gapOf w p2) (runOf words b1 E)).map
    (_bitswap w) with hR3
  set R4 := blendFirst w p1 (wd words b1) R3 with hR4
  set R5 := blendLast w p2 (wd words (E - 1)) R4 with hR5
  have hlenR : (runOf words b1 E).length = n := by
    unfold runOf
    rw [List.length_reverse, List.length_take, List.length_drop, inf_eq_min]
    omega
  have hlen3 : R3.length = n := by
    rw [hR3, List.length_map, realignRun_length, hlenR]
  have hlen4 : R4.length = n := by
    rw [hR4, blendFirst_length, hlen3]
  have hlen5 : R5.length = n := by
    rw [hR5, blendLast_length, hlen4]
  have htake : (words.take b1).length = b1 := by
    rw [List.length_take, inf_eq_min]
    omega
  set j := i / w with hj
  set k := i % w with hk2
  have hkw : k < w := by
    rw [hk2]
    exact Nat.mod_lt _ hw
  have hi : i = j * w + k := by
    rw [hj, hk2, Nat.mul_comm]
    exact (Nat.div_add_mod i w).symm
  rw [bitAt_def w (words.take b1 ++ R5 ++ words.drop E) i, ← hj, ← hk2]
  by_cases hcase1 : j < b1
  · have hwdF : wd (words.take b1 ++ R5 ++ words.drop E) j = wd words j := by
      rw [wd_append_left _ _ j
          (by rw [List.length_append, htake, hlen5]; omega),
        wd_append_left _ _ j (by rw [htake]; omega), wd_take _ _ _ hcase1]
    rw [hwdF]
    have hmul1 : (j + 1) * w ≤ b1 * w := Nat.mul_le_mul_right w (by omega)
    have hmul2 : (j + 1) * w = j * w + w := by ring
    rw [if_neg (by omega), bitAt_def w words i, ← hj, ← hk2]
  · by_cases hcase2 : E ≤ j
    · have hwdF : wd (words.take b1 ++ R5 ++ words.drop E) j
          = wd words j := by
        rw [wd_append_right _ _ j
          (by rw [List.length_append, htake, hlen5]; omega),
          List.length_append, htake, hlen5, wd_drop]
        congr 1
        omega
      rw [hwdF]
      have hmul1 : E * w ≤ j * w := Nat.mul_le_mul_right w hcase2
      have hout : ¬ (b1 * w + p1 ≤ i ∧ i < b2 * w + p2) := by
        rcases hEcases with ⟨hp, hEe⟩ | ⟨hp, hEe⟩
        · have h3 : E * w = b2 * w := by rw [hEe]
          omega
        · have h3 : E * w = b2 * w + w := by rw [hEe]; ring
          omega
      rw [if_neg hout, bitAt_def w words i, ← hj, ← hk2]
    · push_neg at hcase1
      have hjE : j < E := by omega
      have hrn : j - b1 < n := by omega
      have hwdF : wd (words.take b1 ++ R5 ++ words.drop E) j
          = wd R5 (j - b1) := by
        rw [wd_append_left _ _ j
          (by rw [List.length_append, htake, hlen5]; omega),
          wd_append_right _ _ j (by rw [htake]; omega), htake]
      rw [hwdF, hR5,
        wd_blendLast w p2 _ R4 (j - b1) (by rw [hlen4]; exact hrn), hlen4]
      by_cases hC1 : p2 ≠ 0 ∧ j - b1 = n - 1 ∧ p2 ≤ k
      · obtain ⟨hC1a, hC1b, hC1c⟩ := hC1
        rw [if_pos ⟨hC1a, hC1b⟩, testBit_bitblend, if_pos hkw,
          if_pos ⟨hC1c, by omega⟩]
        have hEe : E = b2 + 1 := by
          rcases hEcases with ⟨hp, _⟩ | ⟨_, h⟩
          · exact absurd hp hC1a
          · exact h
        have hjb2 : j = b2 := by omega
        have hEm1 : E - 1 = b2 := by omega
        have hjw : j * w = b2 * w := by rw [hjb2]
        rw [hEm1, if_neg (by omega), bitAt_def w words i, ← hj, ← hk2, hjb2]
      · by_cases hC2 : p1 ≠ 0 ∧ j - b1 = 0 ∧ k < p1
        · obtain ⟨hC2a, hC2b, hC2c⟩ := hC2
          have hnot : ¬ (p2 ≠ 0 ∧ j - b1 = n - 1) := by
            rintro ⟨hx, hy⟩
            rcases hEcases with ⟨hp, hEe⟩ | ⟨hp, hEe⟩
            · exact hx hp
            · omega
          rw [if_neg hnot, hR4,
            wd_blendFirst w p1 _ R3 (j - b1) (by rw [hlen3]; exact hrn),
            if_pos ⟨hC2a, hC2b⟩, testBit_bitblend, if_pos hkw,
            if_neg (by omega)]
          have hjb1 : j = b1 := by omega
          have hjw : j * w = b1 * w := by rw [hjb1]
          rw [if_neg (by omega), bitAt_def w words i, ← hj, ← hk2, hjb1]
        · have hC0 : j - b1 = 0 → p1 ≤ k := by
            intro h0
            by_cases hcp : p1 = 0
            · omega
            · by_contra hcon
              exact hC2 ⟨hcp, h0, by omega⟩
          have hCN : p2 ≠ 0 → j - b1 = n - 1 → k < p2 := by
            intro ha hb'
            by_contra hcon
            exact hC1 ⟨ha, hb', by omega⟩
          have h5bit : (if p2 ≠ 0 ∧ j - b1 = n - 1 then
                _bitblend w (wd R4 (n - 1)) (wd words (E - 1)) p2 (w - p2)
              else wd R4 (j - b1)).testBit k
              = (wd R4 (j - b1)).testBit k := by
            by_cases hL : p2 ≠ 0 ∧ j - b1 = n - 1
            · rw [if_pos hL, testBit_bitblend, if_pos hkw,
                if_neg (by have := hCN hL.1 hL.2; omega), ← hL.2]
            · rw [if_neg hL]
          rw [h5bit, hR4,
            wd_blendFirst w p1 _ R3 (j - b1) (by rw [hlen3]; exact hrn)]
          have h4bit : (if p1 ≠ 0 ∧ j - b1 = 0 then
                _bitblend w (wd words b1) (wd R3 0) p1 (w - p1)
              else wd R3 (j - b1)).testBit k
              = (wd R3 (j - b1)).testBit k := by
            by_cases hF : p1 ≠ 0 ∧ j - b1 = 0
            · rw [if_pos hF, testBit_bitblend, if_pos hkw,
                if_pos ⟨hC0 hF.2, by omega⟩, ← hF.2]
            · rw [if_neg hF]
          rw [h4bit]
          have hR3n : R3 = (realignRun w p1 (gapOf w p2)
              (((words.drop b1).take n).reverse)).map (_bitswap w) := by
            rw [hR3]
            unfold runOf
            rw [← hn]
          have hn2 : n = b2 + (if p2 = 0 then 0 else 1) - b1 := by
            rw [hn, hE]
          rw [hR3n, run3_bit w words b1 p1 b2 p2 n hn2 hw hp1 hp2 hna hb
            (by omega) hwords (j - b1) k hrn hkw hC0 hCN]
          have hin : b1 * w + p1 ≤ i ∧ i < b2 * w + p2 := by
            constructor
            · by_cases h0 : j - b1 = 0
              · have hjb1 : j = b1 := by omega
                have := hC0 h0
                have hjw : j * w = b1 * w := by rw [hjb1]
                omega
              · have hmul : (b1 + 1) * w ≤ j * w :=
                  Nat.mul_le_mul_right w (by omega)
                have hm2 : (b1 + 1) * w = b1 * w + w := by ring
                omega
            · rcases hEcases with ⟨hp, hEe⟩ | ⟨hp, hEe⟩
              · have hmul : (j + 1) * w ≤ b2 * w :=
                  Nat.mul_le_mul_right w (by omega)
                have hm2 : (j + 1) * w = j * w + w := by ring
                omega
              · by_cases hlast : j - b1 = n - 1
                · have hjb2 : j = b2 := by omega
                  have := hCN hp hlast
                  have hjw : j * w = b2 * w := by rw [hjb2]
                  omega
                · have hmul : (j + 1) * w ≤ b2 * w :=
                    Nat.mul_le_mul_right w (by omega)
                  have hm2 : (j + 1) * w = j * w + w := by ring
                  omega
          rw [if_pos hin]
          congr 1
          have hsplit : b2 * w = b1 * w + (b2 - b1) * w := by
            have e1 : b2 = b1 + (b2 - b1) := by omega
            calc b2 * w = (b1 + (b2 - b1)) * w := by rw [← e1]
            _ = b1 * w + (b2 - b1) * w := by ring
          have hjw : j * w = b1 * w + (j - b1) * w := by
            have e1 : j = b1 + (j - b1) := by omega
            calc j * w = (b1 + (j - b1)) * w := by rw [← e1]
            _ = b1 * w + (j - b1) * w := by ring
          omega

/-- Bit-level specification of the both-aligned branch. -/
theorem reverseAligned_bitAt (w : Nat) (words : List Nat) (b1 b2 : Nat)
    (hw : 0 < w) (hb : b1 ≤ b2) (hlen : b2 ≤ words.length)
    (i : Nat) :
    bitAt w (reverseAligned w words b1 b2) i
      = if b1 * w ≤ i ∧ i < b2 * w then
          bitAt w words (b1 * w + b2 * w - 1 - i)
        else bitAt w words i := by
  unfold reverseAligned
  set MID := ((words.drop b1).take (b2 - b1)).reverse.map (_bitswap w) with hM
  have hlenT : ((words.drop b1).take (b2 - b1)).length = b2 - b1 := by
    rw [List.length_take, List.length_drop, inf_eq_min]
    omega
  have hlenM : MID.length = b2 - b1 := by
    rw [hM, List.length_map, List.length_reverse, hlenT]
  have htake : (words.take b1).length = b1 := by
    rw [List.length_take, inf_eq_min]
    omega
  set j := i / w with hj
  set k := i % w with hk2
  have hkw : k < w := by
    rw [hk2]
    exact Nat.mod_lt _ hw
  have hi : i = j * w + k := by
    rw [hj, hk2, Nat.mul_comm]
    exact (Nat.div_add_mod i w).symm
  rw [bitAt_def w (words.take b1 ++ MID ++ words.drop b2) i, ← hj, ← hk2]
  by_cases hc1 : j < b1
  · have hwdF : wd (words.take b1 ++ MID ++ words.drop b2) j
        = wd words j := by
      rw [wd_append_left _ _ j
          (by rw [List.length_append, htake, hlenM]; omega),
        wd_append_left _ _ j (by rw [htake]; omega), wd_take _ _ _ hc1]
    have hmul1 : (j + 1) * w ≤ b1 * w := Nat.mul_le_mul_right w (by omega)
    have hmul2 : (j + 1) * w = j * w + w := by ring
    rw [hwdF, if_neg (by omega), bitAt_def w words i, ← hj, ← hk2]
  · by_cases hc2 : b2 ≤ j
    · have hwdF : wd (words.take b1 ++ MID ++ words.drop b2) j
          = wd words j := by
        rw [wd_append_right _ _ j
          (by rw [List.length_append, htake, hlenM]; omega),
          List.length_append, htake, hlenM, wd_drop]
        congr 1
        omega
      have hmul1 : b2 * w ≤ j * w := Nat.mul_le_mul_right w hc2
      rw [hwdF, if_neg (by omega), bitAt_def w words i, ← hj, ← hk2]
    · push_neg at hc1
      have hr : j - b1 < b2 - b1 := by omega
      have hwdF : wd (words.take b1 ++ MID ++ words.drop b2) j
          = wd MID (j - b1) := by
        rw [wd_append_left _ _ j
          (by rw [List.length_append, htake, hlenM]; omega),
          wd_append_right _ _ j (by rw [htake]; omega), htake]
      rw [hwdF, hM,
        wd_map _ _ _ (by rw [List.length_reverse, hlenT]; omega),
        wd_reverse _ _ (by rw [hlenT]; omega), hlenT,
        wd_take _ _ _ (by omega), wd_drop, testBit_bitswap, if_pos hkw]
      set s := b2 - b1 - 1 - (j - b1) with hs
      have hin : b1 * w ≤ i ∧ i < b2 * w := by
        have hm1 : b1 * w ≤ j * w := Nat.mul_le_mul_right w (by omega)
        have hm2 : (j + 1) * w ≤ b2 * w := Nat.mul_le_mul_right w (by omega)
        have hm3 : (j + 1) * w = j * w + w := by ring
        omega
      rw [if_pos hin]
      have hjw : j * w = b1 * w + (j - b1) * w := by
        have e1 : j = b1 + (j - b1) := by omega
        calc j * w = (b1 + (j - b1)) * w := by rw [← e1]
        _ = b1 * w + (j - b1) * w := by ring
      have hb2w : b2 * w = b1 * w + (j - b1) * w + s * w + w := by
        have e1 : b2 = b1 + (j - b1) + s + 1 := by omega
        calc b2 * w = (b1 + (j - b1) + s + 1) * w := by rw [← e1]
        _ = b1 * w + (j - b1) * w + s * w + w := by ring
      have hbs : (b1 + s) * w = b1 * w + s * w := by ring
      have hT : b1 * w + b2 * w - 1 - i = (b1 + s) * w + (w - 1 - k) := by
        omega
      rw [hT, bitAt_base w words _ _ (by omega)]

/-- Bit-level specification of the same-word branch word value. -/
theorem reverseSame_testBit (w x p1 p2 : Nat) (hw : 0 < w) (hp1 : p1 ≤ p2)
    (hp2 : p2 < w) (hp2z : p2 ≠ 0) (k : Nat) :
    (reverseSame w x p1 p2).testBit k
      = if k < w then
          (if p1 ≤ k ∧ k < p2 then x.testBit (p1 + p2 - 1 - k)
           else x.testBit k)
        else false := by
  unfold reverseSame
  have hgap : gapOf w p2 = w - p2 := by rw [gapOf, if_neg hp2z]
  rw [hgap, testBit_bitblend]
  by_cases hk : k < w
  · rw [if_pos hk, if_pos hk]
    have he : p1 + (p2 - p1) = p2 := by omega
    rw [he]
    by_cases hin : p1 ≤ k ∧ k < p2
    · rw [if_pos hin, if_pos hin, Nat.testBit_shiftRight, testBit_bitswap,
        if_pos (by omega : w - p2 + k < w), Nat.testBit_shiftRight]
      congr 1
      omega
    · rw [if_neg hin, if_neg hin]
  · rw [if_neg hk, if_neg hk]

/-- Bit-level specification of the same-word branch of `reverse`. -/
theorem reverseSame_bitAt (w : Nat) (words : List Nat) (b1 p1 p2 : Nat)
    (hw : 0 < w) (hp1 : p1 ≤ p2) (hp2 : p2 < w) (hp2z : p2 ≠ 0)
    (hlen : b1 < words.length) (i : Nat) :
    bitAt w (words.set b1 (reverseSame w (wd words b1) p1 p2)) i
      = if b1 * w + p1 ≤ i ∧ i < b1 * w + p2 then
          bitAt w words (b1 * w + p1 + (b1 * w + p2) - 1 - i)
        else bitAt w words i := by
  set j := i / w with hj
  set k := i % w with hk2
  have hkw : k < w := by
    rw [hk2]
    exact Nat.mod_lt _ hw
  have hi : i = j * w + k := by
    rw [hj, hk2, Nat.mul_comm]
    exact (Nat.div_add_mod i w).symm
  rw [bitAt_def w (words.set b1 (reverseSame w (wd words b1) p1 p2)) i,
    ← hj, ← hk2, wd_set]
  by_cases hc : b1 = j
  · rw [if_pos ⟨hc, hlen⟩,
      reverseSame_testBit w _ p1 p2 hw hp1 hp2 hp2z, if_pos hkw]
    have hjw : j * w = b1 * w := by rw [hc]
    by_cases hin : p1 ≤ k ∧ k < p2
    · rw [if_pos hin, if_pos (by omega)]
      have hT : b1 * w + p1 + (b1 * w + p2) - 1 - i
          = b1 * w + (p1 + p2 - 1 - k) := by omega
      rw [hT, bitAt_base w words _ _ (by omega)]
    · rw [if_neg hin, if_neg (by omega), bitAt_def w words i, ← hj, ← hk2,
        ← hc]
  · rw [if_neg (by simp [hc])]
    have hout : ¬ (b1 * w + p1 ≤ i ∧ i < b1 * w + p2) := by
      by_cases hlt : j < b1
      · have hmul1 : (j + 1) * w ≤ b1 * w := Nat.mul_le_mul_right w (by omega)
        have hmul2 : (j + 1) * w = j * w + w := by ring
        omega
      · have hmul1 : (b1 + 1) * w ≤ j * w :=
          Nat.mul_le_mul_right w (by omega)
        have hmul2 : (b1 + 1) * w = b1 * w + w := by ring
        omega
    rw [if_neg hout, bitAt_def w words i, ← hj, ← hk2]

/-- The master bit-level specification of `reverse`: for a well-formed range,
every bit inside the range is mirrored and every bit outside it is
preserved. -/
theorem reverse_bitAt (w : Nat) (words : List Nat) (b1 p1 b2 p2 : Nat)
    (hwf : wfRange w words b1 p1 b2 p2) (i : Nat) :
    bitAt w (reverse w words b1 p1 b2 p2) i
      = if bitIdx w b1 p1 ≤ i ∧ i < bitIdx w b2 p2 then
          bitAt w words (bitIdx w b1 p1 + bitIdx w b2 p2 - 1 - i)
        else bitAt w words i := by
  obtain ⟨hw, hp1, hp2, hle, hlen, hwords⟩ := hwf
  unfold reverse bitIdx
  by_cases hal : p1 = 0 ∧ p2 = 0
  · obtain ⟨h1, h2⟩ := hal
    subst h1
    subst h2
    rw [if_pos ⟨rfl, rfl⟩]
    have hb : b1 ≤ b2 := by
      by_contra hcon
      have hmul : (b2 + 1) * w ≤ b1 * w := Nat.mul_le_mul_right w (by omega)
      have hmul2 : (b2 + 1) * w = b2 * w + w := by ring
      omega
    have hlen2 : b2 ≤ words.length := by
      simp only [if_pos rfl] at hlen
      omega
    simp only [Nat.add_zero]
    exact reverseAligned_bitAt w words b1 b2 hw hb hlen2 i
  · rw [if_neg hal]
    by_cases hb : b1 = b2
    · subst hb
      rw [if_neg (by simp)]
      have hp12 : p1 ≤ p2 := by omega
      have hp2z : p2 ≠ 0 := by
        intro h
        exact hal ⟨by omega, h⟩
      have hlen2 : b1 < words.length := by
        simp only [if_neg hp2z] at hlen
        omega
      exact reverseSame_bitAt w words b1 p1 p2 hw hp12 hp2 hp2z hlen2 i
    · rw [if_pos hb]
      have hb12 : b1 < b2 := by
        rcases Nat.lt_or_ge b1 b2 with h | h
        · exact h
        · exfalso
          have hmul : (b2 + 1) * w ≤ b1 * w :=
            Nat.mul_le_mul_right w (by omega)
          have hmul2 : (b2 + 1) * w = b2 * w + w := by ring
          omega
      exact reverseMulti_bitAt w words b1 p1 b2 p2 hw hp1 hp2 hal hb12 hlen
        hwords i

/-- `reverse` preserves the length of the storage. -/
theorem reverse_length (w : Nat) (words : List Nat) (b1 p1 b2 p2 : Nat)
    (hwf : wfRange w words b1 p1 b2 p2) :
    (reverse w words b1 p1 b2 p2).length = words.length := by
  obtain ⟨hw, hp1, hp2, hle, hlen, hwords⟩ := hwf
  have hb : b1 ≤ b2 := by
    by_contra hcon
    have hmul : (b2 + 1) * w ≤ b1 * w := Nat.mul_le_mul_right w (by omega)
    have hmul2 : (b2 + 1) * w = b2 * w + w := by ring
    omega
  unfold reverse
  by_cases hal : p1 = 0 ∧ p2 = 0
  · rw [if_pos hal]
    unfold reverseAligned
    have hlen2 : b2 ≤ words.length := by
      rcases hal with ⟨_, h2⟩
      simp only [if_pos h2] at hlen
      omega
    simp only [List.length_append, List.length_map, List.length_reverse,
      List.length_take, List.length_drop]
    rw [inf_eq_min, inf_eq_min]
    omega
  · rw [if_neg hal]
    by_cases hbb : b1 = b2
    · rw [if_neg (by simp [hbb]), List.length_set]
    · rw [if_pos hbb]
      unfold reverseMulti
      have hbE : b1 < b2 + (if p2 = 0 then 0 else 1) := by omega
      simp only [List.length_append, blendLast_length, blendFirst_length,
        List.length_map, realignRun_length]
      unfold runOf
      simp only [List.length_reverse, List.length_take, List.length_drop]
      rw [inf_eq_min, inf_eq_min]
      omega

/-- A storage whose every word reads below `2 ^ w` satisfies the
representation invariant. -/
theorem wordsWF_of_wd (w : Nat) (L : List Nat)
    (h : ∀ j, j < L.length → wd L j < 2 ^ w) : wordsWF w L := by
  intro x hx
  obtain ⟨j, hj, hEq⟩ := List.getElem_of_mem hx
  rw [← hEq, ← wd_eq_getElem hj]
  exact h j hj

/-- `reverse` preserves the representation invariant. -/
theorem reverse_wordsWF (w : Nat) (words : List Nat) (b1 p1 b2 p2 : Nat)
    (hwf : wfRange w words b1 p1 b2 p2) :
    wordsWF w (reverse w words b1 p1 b2 p2) := by
  have hpow : (0 : Nat) < 2 ^ w := Nat.pos_pow_of_pos w (by norm_num)
  obtain ⟨hw, hp1, hp2, hle, hlen, hwords⟩ := hwf
  have hb : b1 ≤ b2 := by
    by_contra hcon
    have hmul : (b2 + 1) * w ≤ b1 * w := Nat.mul_le_mul_right w (by omega)
    have hmul2 : (b2 + 1) * w = b2 * w + w := by ring
    omega
  apply wordsWF_of_wd
  intro j hj
  unfold reverse at hj ⊢
  by_cases hal : p1 = 0 ∧ p2 = 0
  · rw [if_pos hal] at hj ⊢
    unfold reverseAligned at hj ⊢
    have hlenT : ((words.drop b1).take (b2 - b1)).length = b2 - b1 := by
      rcases hal with ⟨_, h2⟩
      simp only [if_pos h2] at hlen
      rw [List.length_take, List.length_drop, inf_eq_min]
      omega
    have htake : (words.take b1).length = b1 := by
      rcases hal with ⟨_, h2⟩
      simp only [if_pos h2] at hlen
      rw [List.length_take, inf_eq_min]
      omega
    by_cases hc1 : j < b1
    · rw [wd_append_left _ _ j (by
          rw [List.length_append, htake, List.length_map,
            List.length_reverse, hlenT]; omega),
        wd_append_left _ _ j (by rw [htake]; omega), wd_take _ _ _ hc1]
      exact wd_lt hwords j
    · by_cases hc2 : j < b1 + (b2 - b1)
      · rw [wd_append_left _ _ j (by
            rw [List.length_append, htake, List.length_map,
              List.length_reverse, hlenT]; omega),
          wd_append_right _ _ j (by rw [htake]; omega), htake,
          wd_map _ _ _ (by rw [List.length_reverse, hlenT]; omega)]
        exact bitswap_lt w _
      · rw [wd_append_right _ _ j (by
            rw [List.length_append, htake, List.length_map,
              List.length_reverse, hlenT]; omega)]
        rw [List.length_append, htake, List.length_map, List.length_reverse,
          hlenT, wd_drop]
        exact wd_lt hwords _
  · rw [if_neg hal] at hj ⊢
    by_cases hbb : b1 = b2
    · rw [if_neg (by simp [hbb])] at hj ⊢
      rw [wd_set]
      by_cases hcond : b1 = j ∧ b1 < words.length
      · rw [if_pos hcond]
        exact bitblend_lt _ _ _ _ _
      · rw [if_neg hcond]
        exact wd_lt hwords j
    · rw [if_pos hbb] at hj ⊢
      simp only [reverseMulti] at hj ⊢
      set E := b2 + (if p2 = 0 then 0 else 1) with hE
      have hbE : b1 < E := by omega
      have hElen : E ≤ words.length := hlen
      set n := E - b1 with hn
      set R3 := (realignRun w p1 (gapOf w p2) (runOf words b1 E)).map
        (_bitswap w) with hR3
      set R4 := blendFirst w p1 (wd words b1) R3 with hR4
      set R5 := blendLast w p2 (wd words (E - 1)) R4 with hR5
      have hlenR : (runOf words b1 E).length = n := by
        unfold runOf
        rw [List.length_reverse, List.length_take, List.length_drop,
          inf_eq_min]
        omega
      have hlen3 : R3.length = n := by
        rw [hR3, List.length_map, realignRun_length, hlenR]
      have hlen4 : R4.length = n := by
        rw [hR4, blendFirst_length, hlen3]
      have hlen5 : R5.length = n := by
        rw [hR5, blendLast_length, hlen4]
      have htake : (words.take b1).length = b1 := by
        rw [List.length_take, inf_eq_min]
        omega
      have h3lt : ∀ r, r < n → wd R3 r < 2 ^ w := by
        intro r hr
        rw [hR3, wd_map _ _ _ (by rw [realignRun_length, hlenR]; omega)]
        exact bitswap_lt w _
      have h4lt : ∀ r, r < n → wd R4 r < 2 ^ w := by
        intro r hr
        rw [hR4, wd_blendFirst _ _ _ _ _ (by rw [hlen3]; omega)]
        by_cases hcond : p1 ≠ 0 ∧ r = 0
        · rw [if_pos hcond]
          exact bitblend_lt _ _ _ _ _
        · rw [if_neg hcond]
          exact h3lt r hr
      by_cases hc1 : j < b1
      · rw [wd_append_left _ _ j
            (by rw [List.length_append, htake, hlen5]; omega),
          wd_append_left _ _ j (by rw [htake]; omega), wd_take _ _ _ hc1]
        exact wd_lt hwords j
      · by_cases hc2 : j < b1 + n
        · rw [wd_append_left _ _ j
              (by rw [List.length_append, htake, hlen5]; omega),
            wd_append_right _ _ j (by rw [htake]; omega), htake, hR5,
            wd_blendLast _ _ _ _ _ (by rw [hlen4]; omega), hlen4]
          by_cases hcond : p2 ≠ 0 ∧ j - b1 = n - 1
          · rw [if_pos hcond]
            exact bitblend_lt _ _ _ _ _
          · rw [if_neg hcond]
            exact h4lt _ (by omega)
        · rw [wd_append_right _ _ j
              (by rw [List.length_append, htake, hlen5]; omega),
            List.length_append, htake, hlen5, wd_drop]
          exact wd_lt hwords _

/-- Two storages of equal length satisfying the representation invariant and
agreeing on every logical bit are equal. -/
theorem eq_of_bitAt_eq (w : Nat) (L1 L2 : List Nat) (hw : 0 < w)
    (hlen : L1.length = L2.length)
    (h1 : wordsWF w L1) (h2 : wordsWF w L2)
    (h : ∀ i, bitAt w L1 i = bitAt w L2 i) : L1 = L2 := by
  apply List.ext_getElem hlen
  intro j hj1 hj2
  apply Nat.eq_of_testBit_eq
  intro t
  by_cases ht : t < w
  · have hb := h (j * w + t)
    rw [bitAt_base _ _ _ _ ht, bitAt_base _ _ _ _ ht] at hb
    rw [← wd_eq_getElem hj1, ← wd_eq_getElem hj2]
    exact hb
  · have hl1 : L1[j] < 2 ^ t :=
      lt_of_lt_of_le (h1 _ (List.getElem_mem hj1))
        (Nat.pow_le_pow_right (by norm_num) (by omega))
    have hl2 : L2[j] < 2 ^ t :=
      lt_of_lt_of_le (h2 _ (List.getElem_mem hj2))
        (Nat.pow_le_pow_right (by norm_num) (by omega))
    rw [Nat.testBit_lt_two_pow hl1, Nat.testBit_lt_two_pow hl2]

theorem take_set_ge (l : List Nat) (i v c : Nat) (h : c ≤ i) :
    (l.set i v).take c = l.take c := by
  apply List.ext_getElem?
  intro r
  rw [List.getElem?_take, List.getElem?_take]
  by_cases hr : r < c
  · rw [if_pos hr, if_pos hr, List.getElem?_set, if_neg (by omega)]
  · rw [if_neg hr, if_neg hr]

theorem set_eq_splice (l : List Nat) (b v : Nat) (h : b < l.length) :
    l.set b v = l.take b ++ [v] ++ l.drop (b + 1) := by
  have htl : (l.take b).length = b := by
    rw [List.length_take, inf_eq_min]
    omega
  apply List.ext_getElem?
  intro r
  rw [List.getElem?_set]
  rcases Nat.lt_trichotomy r b with hr | hr | hr
  · rw [if_neg (by omega), List.getElem?_append, List.length_append, htl,
      List.length_cons, List.length_nil, if_pos (by omega),
      List.getElem?_append, htl, if_pos hr, List.getElem?_take, if_pos hr]
  · subst hr
    rw [if_pos rfl, if_pos h, List.getElem?_append, List.length_append, htl,
      List.length_cons, List.length_nil, if_pos (by omega),
      List.getElem?_append, htl, if_neg (by omega), Nat.sub_self,
      List.getElem?_cons_zero]
  · rw [if_neg (by omega), List.getElem?_append, List.length_append, htl,
      List.length_cons, List.length_nil, if_neg (by omega),
      List.getElem?_drop]
    congr 1
    omega

theorem shiftRight_lt_pow {x w p : Nat} (hx : x < 2 ^ w) (hp : p ≤ w) :
    x >>> p < 2 ^ (w - p) := by
  rw [Nat.shiftRight_eq_div_pow]
  apply Nat.div_lt_of_lt_mul
  calc x < 2 ^ w := hx
  _ = 2 ^ p * 2 ^ (w - p) := by rw [← pow_add]; congr 1; omega

/-- C1: for every well-formed bit range `[first, last)`, after
`reverse(first, last)` the bit at logical position `first + k` equals the
pre-call bit at position `last - 1 - k` for every `k` below the range length —
the bits inside the range are the exact reverse permutation of their pre-call
values, in every alignment/span case. -/
theorem reverse_mirrors_range (w : Nat) (words : List Nat)
    (b1 p1 b2 p2 : Nat) (hwf : wfRange w words b1 p1 b2 p2) :
    ∀ k, k < bitIdx w b2 p2 - bitIdx w b1 p1 →
      bitAt w (reverse w words b1 p1 b2 p2) (bitIdx w b1 p1 + k)
        = bitAt w words (bitIdx w b2 p2 - 1 - k) := by
  intro k hk
  have hle : bitIdx w b1 p1 ≤ bitIdx w b2 p2 := hwf.hle
  rw [reverse_bitAt w words b1 p1 b2 p2 hwf, if_pos (by omega)]
  congr 1
  omega

/-- Witness for C1: one word `10110010₂ = 178`, range `[2, 6)`; the bit the
call leaves at position `2 + 1` is the pre-call bit at position `6 - 1 - 1`. -/
theorem reverse_mirrors_range_witness :
    bitAt 8 (reverse 8 [178] 0 2 0 6) (bitIdx 8 0 2 + 1)
      = bitAt 8 [178] (bitIdx 8 0 6 - 1 - 1) :=
  reverse_mirrors_range 8 [178] 0 2 0 6
    ⟨by decide, by decide, by decide, by decide, by decide, by unfold wordsWF; decide⟩
    1 (by decide)

/-- C2: for every well-formed bit range and bit value, `count` returns
exactly the number of positions in the range whose bit equals the value; the
result lies in `[0, distance(first, last)]`. (Determinism and absence of
writes hold by construction: `count` is a pure function of the storage.) -/
theorem count_counts_range (w : Nat) (words : List Nat)
    (b1 p1 b2 p2 : Nat) (value : Bool)
    (hwf : wfRange w words b1 p1 b2 p2) :
    count w words b1 p1 b2 p2 value
      = (rangeCount w words (bitIdx w b1 p1) (bitIdx w b2 p2) value : Int)
    ∧ 0 ≤ count w words b1 p1 b2 p2 value
    ∧ count w words b1 p1 b2 p2 value
        ≤ (bitIdx w b2 p2 : Int) - (bitIdx w b1 p1 : Int) := by
  have heq := count_eq_rangeCount w words b1 p1 b2 p2 value hwf
  have hle : bitIdx w b1 p1 ≤ bitIdx w b2 p2 := hwf.hle
  have hbound := rangeCount_le w words (bitIdx w b1 p1) (bitIdx w b2 p2)
    value
  refine ⟨heq, ?_, ?_⟩
  · rw [heq]
    exact Int.natCast_nonneg _
  · rw [heq]
    omega

/-- Witness for C2: two words `11110000₂ = 240`, range `[4, 12)`: the count
of set bits equals the specification count and lies within the distance. -/
theorem count_counts_range_witness :
    count 8 [240, 240] 0 4 1 4 true
      = (rangeCount 8 [240, 240] (bitIdx 8 0 4) (bitIdx 8 1 4) true : Int)
    ∧ 0 ≤ count 8 [240, 240] 0 4 1 4 true
    ∧ count 8 [240, 240] 0 4 1 4 true
        ≤ (bitIdx 8 1 4 : Int) - (bitIdx 8 0 4 : Int) :=
  count_counts_range 8 [240, 240] 0 4 1 4 true
    ⟨by decide, by decide, by decide, by decide, by decide, by unfold wordsWF; decide⟩

/-- C3: for every well-formed bit range, every bit strictly outside
`[first, last)` — including the bits of the partially covered boundary words
that lie outside the logical range — has the identical value before and after
`reverse(first, last)`. -/
theorem reverse_preserves_outside (w : Nat) (words : List Nat)
    (b1 p1 b2 p2 : Nat) (hwf : wfRange w words b1 p1 b2 p2) :
    ∀ i, i < bitIdx w b1 p1 ∨ bitIdx w b2 p2 ≤ i →
      bitAt w (reverse w words b1 p1 b2 p2) i = bitAt w words i := by
  intro i hi
  rw [reverse_bitAt w words b1 p1 b2 p2 hwf, if_neg (by omega)]

/-- Witness for C3: one word `178`, range `[2, 6)`: bit 1 of the boundary
word, outside the logical range, is untouched. -/
theorem reverse_preserves_outside_witness :
    bitAt 8 (reverse 8 [178] 0 2 0 6) 1 = bitAt 8 [178] 1 :=
  reverse_preserves_outside 8 [178] 0 2 0 6
    ⟨by decide, by decide, by decide, by decide, by decide, by unfold wordsWF; decide⟩
    1 (Or.inl (by decide))

/-- C5: for every well-formed bit range, applying `reverse` twice restores
the entire word storage exactly — `reverse` is an involution on the
storage. -/
theorem reverse_involution (w : Nat) (words : List Nat)
    (b1 p1 b2 p2 : Nat) (hwf : wfRange w words b1 p1 b2 p2) :
    reverse w (reverse w words b1 p1 b2 p2) b1 p1 b2 p2 = words := by
  have hwf2 : wfRange w (reverse w words b1 p1 b2 p2) b1 p1 b2 p2 :=
    { wpos := hwf.wpos
      hp1 := hwf.hp1
      hp2 := hwf.hp2
      hle := hwf.hle
      hlen := by
        rw [reverse_length w words b1 p1 b2 p2 hwf]
        exact hwf.hlen
      hwords := reverse_wordsWF w words b1 p1 b2 p2 hwf }
  have hle : bitIdx w b1 p1 ≤ bitIdx w b2 p2 := hwf.hle
  apply eq_of_bitAt_eq w _ words hwf.wpos
  · rw [reverse_length w _ b1 p1 b2 p2 hwf2,
      reverse_length w words b1 p1 b2 p2 hwf]
  · exact reverse_wordsWF w _ b1 p1 b2 p2 hwf2
  · exact hwf.hwords
  · intro i
    rw [reverse_bitAt w _ b1 p1 b2 p2 hwf2 i]
    by_cases hin : bitIdx w b1 p1 ≤ i ∧ i < bitIdx w b2 p2
    · rw [if_pos hin, reverse_bitAt w words b1 p1 b2 p2 hwf _,
        if_pos (by omega)]
      congr 1
      omega
    · rw [if_neg hin, reverse_bitAt w words b1 p1 b2 p2 hwf i, if_neg hin]

/-- Witness for C5: reversing the ten-bit range `[3, 13)` of the two words
`[178, 92]` twice restores the storage exactly. -/
theorem reverse_involution_witness :
    reverse 8 (reverse 8 [178, 92] 0 3 1 5) 0 3 1 5 = [178, 92] :=
  reverse_involution 8 [178, 92] 0 3 1 5
    ⟨by decide, by decide, by decide, by decide, by decide, by unfold wordsWF; decide⟩

/-- C4: for every bit range, `count(R, set) + count(R, unset)` equals
`distance(first, last)` — the complement step of `count` subtracts the raw
set-bit sum from the span length, not from the word width, so the two counts
always sum to the range length. -/
theorem count_set_add_count_unset (w : Nat) (words : List Nat)
    (b1 p1 b2 p2 : Nat) :
    count w words b1 p1 b2 p2 true + count w words b1 p1 b2 p2 false
      = (bitIdx w b2 p2 : Int) - (bitIdx w b1 p1 : Int) := by
  simp only [count]
  norm_num

/-- C6: for an ill-formed range (first positioned after last), both `count`
and `reverse` detect the violation in the viability assertion that runs
before any access to the storage, and surface it as a precondition failure
(`none`) to the caller rather than an answer or a mutated storage. (The
"different underlying sequence" half of ill-formedness has no representation
in this single-sequence embedding.) -/
theorem ill_formed_range_fails_fast (w : Nat) (words : List Nat)
    (b1 p1 b2 p2 : Nat) (value : Bool)
    (h : b2 * w + p2 < b1 * w + p1) :
    countChecked w words b1 p1 b2 p2 value = none
    ∧ reverseChecked w words b1 p1 b2 p2 = none := by
  have ha : _assert_range_viability w b1 p1 b2 p2 = false := by
    unfold _assert_range_viability
    simp only [decide_eq_false_iff_not]
    omega
  refine ⟨?_, ?_⟩
  · unfold countChecked
    rw [ha]
    rfl
  · unfold reverseChecked
    rw [ha]
    rfl

/-- Witness for C6: the reversed empty range `[(1,0), (0,0))` is rejected by
both checked entry points. -/
theorem ill_formed_range_fails_fast_witness :
    countChecked 8 [0] 1 0 0 0 true = none
    ∧ reverseChecked 8 [0] 1 0 0 0 = none :=
  ill_formed_range_fails_fast 8 [0] 1 0 0 0 true (by decide)

/-- C7: in the multi-word unaligned case, the realignment step is selected
exactly by comparing `first.position()` with `gap = digits - last.position()`
(0 when `last` is aligned): below the gap the run is funnel-shifted left by
`gap - first.position()`, each word pulling high bits from the next word;
above the gap it is funnel-shifted right by `first.position() - gap`, each
word pulling low bits from the previous word; at equality no shift is
performed. -/
theorem realign_selection (w p1 p2 : Nat) (run : List Nat) (hw : 0 < w)
    (hp1 : p1 < w) (hrun : wordsWF w run) :
    (p1 < gapOf w p2 →
      realignRun w p1 (gapOf w p2) run = shldRun w (gapOf w p2 - p1) run
      ∧ ∀ j, j < run.length → ∀ k, k < w →
          (wd (realignRun w p1 (gapOf w p2) run) j).testBit k
            = if k < gapOf w p2 - p1 then
                (wd run (j + 1)).testBit (w - (gapOf w p2 - p1) + k)
              else (wd run j).testBit (k - (gapOf w p2 - p1)))
    ∧ (gapOf w p2 < p1 →
      realignRun w p1 (gapOf w p2) run = shrdRun w (p1 - gapOf w p2) run
      ∧ ∀ j, j < run.length → ∀ k, k < w →
          (wd (realignRun w p1 (gapOf w p2) run) j).testBit k
            = if k < w - (p1 - gapOf w p2) then
                (wd run j).testBit (k + (p1 - gapOf w p2))
              else
                (if j = 0 then false
                 else (wd run (j - 1)).testBit
                   (k - (w - (p1 - gapOf w p2)))))
    ∧ (p1 = gapOf w p2 → realignRun w p1 (gapOf w p2) run = run) := by
  have hgw : gapOf w p2 ≤ w := by
    unfold gapOf
    split <;> omega
  refine ⟨?_, ?_, ?_⟩
  · intro hA
    have hsel : realignRun w p1 (gapOf w p2) run
        = shldRun w (gapOf w p2 - p1) run := by
      unfold realignRun
      rw [if_pos hA]
    refine ⟨hsel, ?_⟩
    intro j hj k hk
    rw [hsel, shldRun_wd _ _ _ j hj,
      testBit_shld _ _ _ _ _ (wd_lt hrun (j + 1)) (by omega), if_pos hk]
  · intro hB
    have hsel : realignRun w p1 (gapOf w p2) run
        = shrdRun w (p1 - gapOf w p2) run := by
      unfold realignRun
      rw [if_neg (by omega), if_pos hB]
    refine ⟨hsel, ?_⟩
    intro j hj k hk
    rw [hsel, shrdRun_wd _ _ _ j hj,
      testBit_shrd _ _ _ _ _ (wd_lt hrun j) (by omega), if_pos hk]
    by_cases hks : k < w - (p1 - gapOf w p2)
    · rw [if_pos hks, if_pos hks]
    · rw [if_neg hks, if_neg hks]
      by_cases hj0 : j = 0
      · rw [if_pos hj0, if_pos hj0, Nat.zero_testBit]
      · rw [if_neg hj0, if_neg hj0]
  · intro hC
    unfold realignRun
    rw [if_neg (by omega), if_neg (by omega)]

/-- Witness for C7: with `w = 8`, `p1 = 1`, `p2 = 3` the gap is `5 > p1`, and
the realignment is the left funnel shift by `gap - p1 = 4`. -/
theorem realign_selection_witness :
    realignRun 8 1 (gapOf 8 3) [5, 7] = shldRun 8 (gapOf 8 3 - 1) [5, 7] :=
  ((realign_selection 8 1 3 [5, 7] (by decide) (by decide)
      (by unfold wordsWF; decide)).1 (by decide)).1

/-- C10: the result of `count` depends only on the bits inside the logical
range: two storages agreeing on every position in `[first, last)` yield the
same count, even when the boundary-word bits outside the range differ — the
partial-word slices are masked before population counting. -/
theorem count_depends_only_on_range (w : Nat) (ws1 ws2 : List Nat)
    (b1 p1 b2 p2 : Nat) (value : Bool)
    (hwf1 : wfRange w ws1 b1 p1 b2 p2) (hwf2 : wfRange w ws2 b1 p1 b2 p2)
    (h : ∀ i, bitIdx w b1 p1 ≤ i → i < bitIdx w b2 p2 →
      bitAt w ws1 i = bitAt w ws2 i) :
    count w ws1 b1 p1 b2 p2 value = count w ws2 b1 p1 b2 p2 value := by
  rw [count_eq_rangeCount w ws1 b1 p1 b2 p2 value hwf1,
    count_eq_rangeCount w ws2 b1 p1 b2 p2 value hwf2]
  congr 1
  unfold rangeCount
  congr 1
  apply Finset.filter_congr
  intro i hi
  rw [Finset.mem_Ico] at hi
  rw [h i hi.1 hi.2]

/-- Witness for C10: `[240]` and `[243]` agree on the bits of `[4, 8)` and
differ only below the range; their counts coincide. -/
theorem count_depends_only_on_range_witness :
    count 8 [240] 0 4 1 0 true = count 8 [243] 0 4 1 0 true :=
  count_depends_only_on_range 8 [240] [243] 0 4 1 0 true
    ⟨by decide, by decide, by decide, by decide, by decide, by unfold wordsWF; decide⟩
    ⟨by decide, by decide, by decide, by decide, by decide, by unfold wordsWF; decide⟩
    (by
      intro i h1 h2
      unfold bitIdx at h1 h2
      norm_num at h1 h2
      interval_cases i <;> decide)

/-- C8: for a range confined to one word, the single-word fast-path formula
and the general multi-word decomposition agree. A range covering the upper
bits `[p1, w)` of word `b` is addressed as `[(b, p1), (b + 1, 0))` and is
handled by the general multi-word path; its result — the same count, and the
same final storage for reverse — equals the single-word fast-path formula of
the same bit set (the `countSame`/`reverseSame` expressions at
`last.position() = w`). -/
theorem single_word_path_equiv (w : Nat) (words : List Nat) (b p1 : Nat)
    (hw : 0 < w) (hp0 : 0 < p1) (hp1 : p1 < w)
    (hlen : b + 1 ≤ words.length) (hwords : wordsWF w words) :
    countMulti w words b p1 (b + 1) 0 = countSame (wd words b) p1 w
    ∧ reverseMulti w words b p1 (b + 1) 0
        = words.set b (reverseSame w (wd words b) p1 w) := by
  have hblen : b < words.length := by omega
  have hxlt : wd words b < 2 ^ w := wd_lt hwords b
  have hp1ne : p1 ≠ 0 := by omega
  constructor
  · unfold countMulti countSame
    simp only [if_pos hp1ne]
    rw [Nat.sub_self, List.take_zero, List.map_nil, List.sum_nil,
      if_neg (by omega), Nat.add_zero, Nat.add_zero]
    unfold _bextr
    rw [Nat.mod_eq_of_lt (shiftRight_lt_pow hxlt (by omega))]
  · simp only [reverseMulti, if_true, Nat.add_zero]
    have hrun : runOf words b (b + 1) = [words[b]] := by
      unfold runOf
      rw [(show b + 1 - b = 1 by omega), List.drop_eq_getElem_cons hblen,
        List.take_succ_cons, List.take_zero]
      rfl
    rw [hrun, (show gapOf w 0 = 0 by unfold gapOf; simp),
      (show realignRun w p1 0 [words[b]] = [_shrd w words[b] 0 p1] from by
        unfold realignRun
        rw [if_neg (by omega), if_pos (by omega), Nat.sub_zero]
        rfl),
      (show _shrd w words[b] 0 p1 = words[b] >>> p1 from by
        unfold _shrd
        rw [Nat.zero_mul, Nat.zero_add, Nat.mod_eq_of_lt]
        exact lt_of_le_of_lt
          (by rw [Nat.shiftRight_eq_div_pow]; exact Nat.div_le_self _ _)
          (hwords _ (List.getElem_mem hblen)))]
    simp only [List.map_cons, List.map_nil]
    rw [(show blendFirst w p1 (wd words b)
          [_bitswap w (words[b] >>> p1)]
          = [_bitblend w (wd words b) (_bitswap w (words[b] >>> p1)) p1
              (w - p1)] from by
        unfold blendFirst
        rw [if_pos hp1ne]
        rfl),
      (show blendLast w 0 (wd words (b + 1 - 1))
          [_bitblend w (wd words b) (_bitswap w (words[b] >>> p1)) p1
            (w - p1)]
          = [_bitblend w (wd words b) (_bitswap w (words[b] >>> p1)) p1
              (w - p1)] from by
        unfold blendLast
        rw [if_neg (by omega)]),
      (show reverseSame w (wd words b) p1 w
          = _bitblend w (wd words b) (_bitswap w (wd words b >>> p1)) p1
              (w - p1) from by
        unfold reverseSame
        rw [(show gapOf w w = 0 from by
            unfold gapOf
            rw [if_neg (by omega), Nat.sub_self]),
          Nat.shiftRight_zero]),
      set_eq_splice words b _ hblen, wd_eq_getElem hblen]

/-- Witness for C8: word `178`, upper slice `[2, 8)` addressed as the
one-element multi-word range `[(0,2), (1,0))`: both the count and the stored
result agree with the single-word formulas at `last.position() = 8`. -/
theorem single_word_path_equiv_witness :
    countMulti 8 [178] 0 2 1 0 = countSame (wd [178] 0) 2 8
    ∧ reverseMulti 8 [178] 0 2 1 0
        = [178].set 0 (reverseSame 8 (wd [178] 0) 2 8) :=
  single_word_path_equiv 8 [178] 0 2 (by decide) (by decide) (by decide)
    (by decide) (by unfold wordsWF; decide)

/-- C9: for a well-formed range whose last address is word-aligned
(`last.position() = 0`), neither `count` nor `reverse` reads or writes the
word at `last.base()`: replacing that word by an arbitrary value leaves the
count unchanged, and commutes with `reverse` — so `last` may legally be a
one-past-the-end position of the caller's word storage. -/
theorem last_aligned_untouched (w : Nat) (words : List Nat)
    (b1 p1 b2 v : Nat) (value : Bool)
    (hwf : wfRange w words b1 p1 b2 0) :
    count w (words.set b2 v) b1 p1 b2 0 value
      = count w words b1 p1 b2 0 value
    ∧ reverse w (words.set b2 v) b1 p1 b2 0
      = (reverse w words b1 p1 b2 0).set b2 v := by
  obtain ⟨hw, hp1, hp2, hle, hlen, hwords⟩ := hwf
  have hlen2 : b2 ≤ words.length := by simpa using hlen
  have hb : b1 ≤ b2 := by
    by_contra hcon
    have hmul : (b2 + 1) * w ≤ b1 * w := Nat.mul_le_mul_right w (by omega)
    have hmul2 : (b2 + 1) * w = b2 * w + w := by ring
    omega
  constructor
  · by_cases hbb : b1 = b2
    · subst hbb
      have hp1z : p1 = 0 := by omega
      subst hp1z
      have h0 : _popcnt 0 = 0 := by
        have := _popcnt_eq_sum_testBit 0 0 (by norm_num)
        simpa using this
      have hcs : ∀ x : Nat, countSame x 0 0 = 0 := by
        intro x
        have hb0 : _bextr x 0 (0 - 0) = 0 := by
          unfold _bextr
          simp [Nat.mod_one]
        unfold countSame
        rw [hb0, h0]
      simp only [count]
      rw [if_neg (show ¬ b1 ≠ b1 by omega),
        if_neg (show ¬ b1 ≠ b1 by omega), hcs, hcs]
    · have hblt : b1 < b2 := by omega
      simp only [count]
      rw [if_pos (show b1 ≠ b2 by omega), if_pos (show b1 ≠ b2 by omega)]
      have hcm : countMulti w (words.set b2 v) b1 p1 b2 0
          = countMulti w words b1 p1 b2 0 := by
        unfold countMulti
        have h1 : wd (words.set b2 v) b1 = wd words b1 := by
          rw [wd_set, if_neg (by omega)]
        by_cases hp : p1 ≠ 0
        · simp only [if_pos hp]
          rw [h1, List.drop_set, if_neg (by omega),
            take_set_ge _ _ _ _ (by omega),
            if_neg (show ¬ (0 : Nat) ≠ 0 by omega),
            if_neg (show ¬ (0 : Nat) ≠ 0 by omega)]
        · simp only [if_neg hp]
          rw [List.drop_set, if_neg (by omega),
            take_set_ge _ _ _ _ (by omega),
            if_neg (show ¬ (0 : Nat) ≠ 0 by omega),
            if_neg (show ¬ (0 : Nat) ≠ 0 by omega)]
      rw [hcm]
  · by_cases hal : p1 = 0
    · subst hal
      unfold reverse
      rw [if_pos ⟨rfl, rfl⟩, if_pos ⟨rfl, rfl⟩]
      unfold reverseAligned
      have hplen : (words.take b1
          ++ ((words.drop b1).take (b2 - b1)).reverse.map
              (_bitswap w)).length = b2 := by
        rw [List.length_append, List.length_take, List.length_map,
          List.length_reverse, List.length_take, List.length_drop,
          inf_eq_min, inf_eq_min]
        omega
      rw [take_set_ge _ _ _ _ hb, List.drop_set, if_neg (by omega),
        take_set_ge _ _ _ _ (by omega), List.drop_set, if_neg (by omega),
        Nat.sub_self, List.set_append, if_neg (by rw [hplen]; omega),
        hplen, Nat.sub_self]
    · have hbb : b1 ≠ b2 := by
        intro h
        rw [← h] at hle
        omega
      unfold reverse
      rw [if_neg (by simp [hal]), if_pos hbb, if_neg (by simp [hal]),
        if_pos hbb]
      simp only [reverseMulti, if_true, Nat.add_zero]
      have hBL : ∀ lv run, blendLast w 0 lv run = run := by
        intro lv run
        unfold blendLast
        rw [if_neg (by omega)]
      rw [hBL, hBL,
        (show wd (words.set b2 v) b1 = wd words b1 from by
          rw [wd_set, if_neg (by omega)]),
        (show runOf (words.set b2 v) b1 b2 = runOf words b1 b2 from by
          unfold runOf
          rw [List.drop_set, if_neg (by omega),
            take_set_ge _ _ _ _ (by omega)]),
        take_set_ge _ _ _ _ hb, List.drop_set, if_neg (by omega),
        Nat.sub_self]
      have hplen : (words.take b1 ++ blendFirst w p1 (wd words b1)
          ((realignRun w p1 (gapOf w 0) (runOf words b1 b2)).map
            (_bitswap w))).length = b2 := by
        rw [List.length_append, List.length_take, blendFirst_length,
          List.length_map, realignRun_length]
        unfold runOf
        rw [List.length_reverse, List.length_take, List.length_drop,
          inf_eq_min, inf_eq_min]
        omega
      rw [List.set_append, if_neg (by rw [hplen]; omega), hplen,
        Nat.sub_self]

/-- Witness for C9: for the range `[4, 8)` of `[240, 7]` (last aligned at the
one-past-the-end word index 1), replacing word 1 by 99 leaves the count
unchanged and commutes with `reverse`. -/
theorem last_aligned_untouched_witness :
    count 8 ([240, 7].set 1 99) 0 4 1 0 true = count 8 [240, 7] 0 4 1 0 true
    ∧ reverse 8 ([240, 7].set 1 99) 0 4 1 0
        = (reverse 8 [240, 7] 0 4 1 0).set 1 99 :=
  last_aligned_untouched 8 [240, 7] 0 4 1 99 true
    ⟨by decide, by decide, by decide, by decide, by decide, by unfold wordsWF; decide⟩

end Bit
